import Mathlib

/-!
# Verification of the bm-sssp TypeScript implementation

A shallow embedding, in Lean 4, of the core of the `bm-sssp` repository:
the partial-sorting queue (`src/sssp/bmssp/psqueue.ts`), the relaxation
primitive (`src/sssp/bmssp/relax.ts`, and the older copy of the same file
kept in the repository), `findPivots`, `baseCase`, the `BMSSP_level`
recursion in both copies present in the repository (the copy at
`src/sssp/bmssp/bmssp.ts` and the other copy of the same module), the
reference `dijkstraSSSP`, and the `bmSssp` driver.

Modelling conventions:
 * IEEE-754 doubles are modelled by `WithTop ℚ` (`⊤` is `Infinity`).
   All numbers produced by the programs here are sums of finite
   non-negative inputs, so `-Infinity` and `NaN` never arise, and every
   comparison performed by the code agrees with the `WithTop ℚ` order.
 * `Number.isFinite x` is modelled by `x ≠ ⊤`.
 * Mutable arrays indexed by vertex (`dist`, `pred`, `size`, `parent`)
   are modelled as total functions updated pointwise; `Int32Array`
   sentinel `-1` entries of `parent` are modelled by `Option ℕ`, and the
   optional `pred` array by `Option (ℕ → ℤ)`.
 * JavaScript `Array.prototype.sort` (stable, ascending by `val`) is
   modelled by a stable insertion sort: for a total comparator the output
   of any stable sort is unique, so this is exact.
 * `while` loops that are not structurally recursive take a fuel
   argument and return `none` when the fuel runs out, mirroring the
   partiality of the loop; all other code is total.
-/

/-- A priority value: an IEEE double, here a rational or `⊤` (Infinity). -/
abbrev Val : Type := WithTop ℚ

/-- The shared mutable distance array, as a total function. -/
abbrev DistArr : Type := ℕ → Val

/-- The optional predecessor array (`Int32Array`, `-1` initialised). -/
abbrev PredArr : Type := Option (ℕ → ℤ)

/-- Write `pred[v] = u` when the predecessor array is present
(the `if (pred) pred[v] = u` guard in the source). -/
def predSet (pred : PredArr) (v u : ℕ) : PredArr :=
  pred.map fun p => Function.update p v (u : ℤ)

/-- Rational addition written through `mkRat`.  `Rat.add` is
`@[irreducible]` in this toolchain, which blocks kernel evaluation of
the embedded programs on concrete inputs; `qadd` is the same function
(see `qadd_eq_add`) in a form the kernel reduces. -/
def qadd (a b : ℚ) : ℚ := mkRat (a.num * b.den + b.num * a.den) (a.den * b.den)

/-- Rational subtraction through `mkRat`, as `qadd`. -/
def qsub (a b : ℚ) : ℚ := mkRat (a.num * b.den - b.num * a.den) (a.den * b.den)

/-- Absolute difference `Math.abs(a - b)`, by comparison and `qsub`. -/
def qabsSub (a b : ℚ) : ℚ := if a ≤ b then qsub b a else qsub a b

/-- Addition `dist[u] + w` on a possibly-infinite left operand: `Infinity + w`
is `Infinity`; see `vadd_eq`. -/
def vadd (a : Val) (w : ℚ) : Val :=
  match a with
  | ⊤ => ⊤
  | some q => ((qadd q w : ℚ) : Val)

/-- CSR graph record, from `core/types.ts` (`GSRGraph`).  Out-of-range
reads of the typed arrays cannot occur on the valid inputs the core
assumes, so `List.getD` defaults are never exercised there. -/
structure GSRGraph where
  n : ℕ
  m : ℕ
  rowPtr : List ℕ
  cols : List ℕ
  weights : List ℚ
deriving Repr, DecidableEq

/-- The out-edge slice `[rowPtr[u], rowPtr[u+1])` of the CSR arrays, as
the list of pairs `(cols[k], weights[k])` in increasing `k`: exactly the
range every `for (let k = L; k < R; k++)` loop of the source walks. -/
def GSRGraph.outEdges (g : GSRGraph) (u : ℕ) : List (ℕ × ℚ) :=
  let L := g.rowPtr.getD u 0
  let R := g.rowPtr.getD (u + 1) 0
  (List.range (R - L)).map fun i => (g.cols.getD (L + i) 0, g.weights.getD (L + i) 0)

/-! ## Partial-sorting queue (`psqueue.ts`) -/

/-- A queue element `{ key, val }`. -/
structure Pair where
  key : ℕ
  val : Val
deriving Repr, DecidableEq

/-- Stable insertion of a pair into a list sorted ascending by `val`:
a new element goes after existing elements with equal `val`, which is
what the stable JS sort with comparator `(a, b) => a.val - b.val` does. -/
def sortInsert (p : Pair) : List Pair → List Pair
  | [] => [p]
  | q :: qs => if p.val < q.val then p :: q :: qs else q :: sortInsert p qs

/-- Stable ascending-by-`val` sort, modelling `blk.sort((a, b) => a.val - b.val)`. -/
def sortByVal : List Pair → List Pair
  | [] => []
  | p :: ps => sortInsert p (sortByVal ps)

/-- The partial-sorting queue state: block list plus the pair counter
`size_` (the counter is a separate field in the source, not derived). -/
structure PSQueue where
  M : ℕ
  B : Val
  blocks : List (List Pair)
  size : ℕ
deriving Repr, DecidableEq

/-- Constructor `new PSQueue(M, B)`: clamps `M` to at least 1, starts empty. -/
def PSQueue.make (M : ℕ) (B : Val) : PSQueue :=
  ⟨max 1 M, B, [], 0⟩

/-- All stored pairs, front to back (`blocks` flattened). -/
def PSQueue.pairs (q : PSQueue) : List Pair :=
  q.blocks.flatten

/-- Predicate `isEmpty()` is size-zero (the counter, not the block list). -/
def PSQueue.isEmpty (q : PSQueue) : Bool :=
  q.size = 0

/-- The `insert` placement scan: index of the first block that is empty
or whose current last element has `val ≥` the incoming value; the list
length if no block qualifies. -/
def findBlockIdx (v : Val) : List (List Pair) → ℕ
  | [] => 0
  | blk :: rest =>
    match blk.getLast? with
    | none => 0
    | some last => if v ≤ last.val then 0 else 1 + findBlockIdx v rest

/-- Operation `insert(p)`: append `p` to the located block (appending a fresh
block first when the scan ran off the end), bump the pair counter, and
if the block now exceeds `M` pairs sort it and split it at
`Math.ceil(len / 2)` into two blocks in place. -/
def PSQueue.insert (q : PSQueue) (p : Pair) : PSQueue :=
  let i := findBlockIdx p.val q.blocks
  let blocks0 := if i = q.blocks.length then q.blocks ++ [[]] else q.blocks
  let blk := blocks0.getD i [] ++ [p]
  let blocks1 :=
    if q.M < blk.length then
      let sorted := sortByVal blk
      let mid := (blk.length + 1) / 2
      blocks0.take i ++ [sorted.take mid, sorted.drop mid] ++ blocks0.drop (i + 1)
    else blocks0.set i blk
  ⟨q.M, q.B, blocks1, q.size + 1⟩

/-- Helper `peekGlobalMin()`: the smallest `val` among all stored pairs,
`Infinity` (`⊤`) when there are none.  The source's early `isEmpty()`
return yields `Infinity` exactly when the scan over the blocks would,
so the scan alone is a faithful model of both paths. -/
def peekGlobalMin (blocks : List (List Pair)) : Val :=
  blocks.flatten.foldl (fun m p => if p.val < m then p.val else m) ⊤

/-- Chunking worker, structurally recursive on a fuel that bounds the
number of chunks (the list length suffices whenever `c ≥ 1`). -/
def chunksOfAux (c : ℕ) : ℕ → List Pair → List (List Pair)
  | _, [] => []
  | 0, l => [l]
  | fuel + 1, l@(_ :: _) =>
    if c = 0 then [l] else l.take c :: chunksOfAux c fuel (l.drop c)

/-- Split a list into chunks of `c` elements (`slice(i, i + c)` stepping). -/
def chunksOf (c : ℕ) (l : List Pair) : List (List Pair) :=
  chunksOfAux c l.length l

/-- Operation `batchPrepend(L)`: partition `L` against the queue minimum computed
once up front, routing non-smaller elements through `insert` as the
partition proceeds; then prepend the remaining strictly-smaller
elements chunk by chunk (`Math.max(1, Math.floor(M / 2))` per chunk,
each chunk sorted), each `unshift` placing the later chunk in front. -/
def PSQueue.batchPrepend (q : PSQueue) (L : List Pair) : PSQueue :=
  if L = [] then q
  else
    let curMin := peekGlobalMin q.blocks
    let part := L.foldl
      (fun (acc : PSQueue × List Pair) p =>
        if p.val < curMin then (acc.1, acc.2 ++ [p]) else (acc.1.insert p, acc.2))
      (q, [])
    let q1 := part.1
    let smaller := part.2
    if smaller = [] then q1
    else
      let chunkSize := max 1 (q.M / 2)
      (chunksOf chunkSize smaller).foldl
        (fun qq chunk => ⟨qq.M, qq.B, sortByVal chunk :: qq.blocks, qq.size + chunk.length⟩)
        q1

/-- The front-drain of `pull()` on a single block: take up to `c`
pairs off the front (`front.shift()`), returning taken and rest. -/
def drainBlock : List Pair → ℕ → List Pair × List Pair
  | ps, 0 => ([], ps)
  | [], _ + 1 => ([], [])
  | p :: ps, c + 1 =>
    let r := drainBlock ps c
    (p :: r.1, r.2)

/-- The outer drain loop of `pull()`: keep taking from the front block,
dropping a block once it empties, until `M` pairs are collected or the
blocks run out.  A block emptied exactly at the cap is still dropped,
as in the source. -/
def drainBlocks : List (List Pair) → ℕ → List Pair × List (List Pair)
  | [], _ => ([], [])
  | b :: bs, c =>
    if c = 0 then ([], b :: bs)
    else
      let r := drainBlock b c
      if r.2.isEmpty then
        let r2 := drainBlocks bs (c - r.1.length)
        (r.1 ++ r2.1, r2.2)
      else (r.1, r.2 :: bs)

/-- Deduplicate the collected pairs by key, keeping the smallest `val`
per key; key order is first-occurrence order (`Map` insertion order). -/
def dedupeBest : List Pair → List Pair → List Pair
  | best, [] => best
  | best, p :: ps =>
    match best.find? (fun b => b.key = p.key) with
    | none => dedupeBest (best ++ [p]) ps
    | some b =>
      if p.val < b.val then
        dedupeBest (best.map fun b' => if b'.key = p.key then ⟨p.key, p.val⟩ else b') ps
      else dedupeBest best ps

/-- Helper `computeTrueMinOrB()` as called from `pull()`: the pair counter has
not been decremented yet there, so its `isEmpty()` guard never fires and
the result is the global scan minimum, demoted to `B` when not finite. -/
def pullBound (blocks : List (List Pair)) (B : Val) : Val :=
  let m := peekGlobalMin blocks
  if m = ⊤ then B else m

/-- Operation `pull()`: empty queue returns `([], B)` unchanged; otherwise drain
up to `M` pairs from the front, dedupe them by best val per key, report
the true minimum of what remains (or `B`), and decrement the counter by
the number of pairs removed. -/
def PSQueue.pull (q : PSQueue) : List ℕ × Val × PSQueue :=
  if q.isEmpty then ([], q.B, q)
  else
    let d := drainBlocks q.blocks q.M
    let best := dedupeBest [] d.1
    let bound := pullBound d.2 q.B
    (best.map Pair.key, bound, ⟨q.M, q.B, d.2, q.size - d.1.length⟩)

/-! ## Relaxation primitive (`relax.ts`, both copies in the repository) -/

/-- Result of a relaxation sweep: the updated arrays plus the
`updates` counter the function returns. -/
structure RelaxResult where
  dist : DistArr
  pred : PredArr
  updates : ℕ

/-- One edge step of `relaxOutNeighbors` (the `src/sssp/bmssp/relax.ts`
copy), with `du` the value captured before the loop. -/
def relaxStep (u : ℕ) (du : ℚ) (eqOK : Bool) (boundB : Option Val)
    (st : RelaxResult) (vw : ℕ × ℚ) : RelaxResult :=
  let v := vw.1
  let nd : Val := ((qadd du vw.2 : ℚ) : Val)
  let rejected : Bool := match boundB with
    | some b => ! decide (nd < b)
    | none => false
  if rejected then st
  else if (eqOK = true ∧ nd ≤ st.dist v) ∨ (eqOK = false ∧ nd < st.dist v) then
    if nd < st.dist v then
      ⟨Function.update st.dist v nd, predSet st.pred v u, st.updates + 1⟩
    else ⟨st.dist, st.pred, st.updates + 1⟩
  else st

/-- Function `relaxOutNeighbors` from `src/sssp/bmssp/relax.ts`: walk the CSR
out-edges of `u` with `du` captured up front; skip an edge when the
optional bound rejects `nd`; on `(eqOK ∧ nd ≤ dist[v]) ∨ nd < dist[v]`
count a relaxation, but write `dist[v]`/`pred[v]` only on the strict
improvement `nd < dist[v]`. -/
def relaxOutNeighbors (g : GSRGraph) (u : ℕ) (dist : DistArr) (pred : PredArr)
    (eqOK : Bool) (boundB : Option Val) : RelaxResult :=
  match dist u with
  | ⊤ => ⟨dist, pred, 0⟩
  | some du =>
    (g.outEdges u).foldl (relaxStep u du eqOK boundB) ⟨dist, pred, 0⟩

/-- The other copy of `relaxOutNeighbors` kept in the repository (the
file also holding a `findPivots` copy): identical bound and comparison
logic, but when the comparison passes it assigns `dist[v] = nd` and
`pred[v] = u` unconditionally, i.e. also when `nd` merely equals
`dist[v]` under `eqOK`. -/
def relaxOutNeighborsAlt (g : GSRGraph) (u : ℕ) (dist : DistArr) (pred : PredArr)
    (eqOK : Bool) (boundB : Option Val) : RelaxResult :=
  match dist u with
  | ⊤ => ⟨dist, pred, 0⟩
  | some du =>
    (g.outEdges u).foldl
      (fun st vw =>
        let v := vw.1
        let nd : Val := ((qadd du vw.2 : ℚ) : Val)
        let rejected : Bool := match boundB with
          | some b => ! decide (nd < b)
          | none => false
        if rejected then st
        else if (eqOK = true ∧ nd ≤ st.dist v) ∨ (eqOK = false ∧ nd < st.dist v) then
          ⟨Function.update st.dist v nd, predSet st.pred v u, st.updates + 1⟩
        else st)
      ⟨dist, pred, 0⟩

/-! ## FindPivots (`findPivots.ts`) -/

/-- The epsilon used by the tight-forest detection, `1e-12`
(via `mkRat` for kernel reduction; see `EPS_eq`). -/
def EPS : ℚ := mkRat 1 (10 ^ 12)

/-- One edge step of a FindPivots relaxation round (claim C8 reasons
about it): the captured `du` is the value `dist[u]` had at `u`'s turn. -/
def fpRoundStep (B : Val) (du : ℚ)
    (st2 : List ℕ × List ℕ × DistArr) (vw : ℕ × ℚ) : List ℕ × List ℕ × DistArr :=
  let v := vw.1
  let nd : Val := ((qadd du vw.2 : ℚ) : Val)
  if ¬ nd < B then st2
  else if nd ≤ st2.2.2 v then
    let dist' := if nd < st2.2.2 v then Function.update st2.2.2 v nd else st2.2.2
    if v ∈ st2.2.1 then (st2.1, st2.2.1, dist')
    else (st2.1 ++ [v], st2.2.1 ++ [v], dist')
  else st2

/-- One bounded relaxation round of FindPivots over the previous
frontier: state is `(next, W, dist)`; per source vertex `u`, `du` is
read at `u`'s turn, non-finite `du` aborts the vertex, and each edge
with `nd < B` and `nd ≤ dist[v]` tightens strictly and appends unseen
`v` to both `W` and the next frontier. -/
def fpRound (g : GSRGraph) (B : Val) (prev : List ℕ) (W : List ℕ) (dist : DistArr) :
    List ℕ × List ℕ × DistArr :=
  prev.foldl
    (fun (st : List ℕ × List ℕ × DistArr) u =>
      match st.2.2 u with
      | ⊤ => st
      | some du =>
        (g.outEdges u).foldl (fpRoundStep B du) st)
    ([], W, dist)

/-- Outcome of the round loop: the discovered set, the mutated
distances, and whether the `|W| > k·|S|` explosion exit fired. -/
structure RoundsOut where
  W : List ℕ
  dist : DistArr
  exploded : Bool

/-- The `for (let i = 1; i <= k; i++)` round loop with its two early
exits: explosion (`|W| > k·|S|`, returning `P = S`) and a round that
adds no new vertex. -/
def fpRounds (g : GSRGraph) (B : Val) (kS : ℕ) :
    ℕ → List ℕ → List ℕ → DistArr → RoundsOut
  | 0, _, W, dist => ⟨W, dist, false⟩
  | r + 1, prev, W, dist =>
    let st := fpRound g B prev W dist
    if kS < st.2.1.length then ⟨st.2.1, st.2.2, true⟩
    else if st.2.1.length = W.length then ⟨st.2.1, st.2.2, false⟩
    else fpRounds g B kS r st.1 st.2.1 st.2.2

/-- Tight-forest parent assignment over `W`: for each `u ∈ W` in `W`
order and each out-edge into `W`, an edge with `|du + w − dist[v]| ≤ EPS`
claims `parent[v] = u` when `v` has no parent yet or `dist[u]` beats the
current parent's distance (`-1` sentinel modelled by `none`). -/
def tightParents (g : GSRGraph) (W : List ℕ) (dist : DistArr) : ℕ → Option ℕ :=
  W.foldl
    (fun par u =>
      match dist u with
      | ⊤ => par
      | some du =>
        (g.outEdges u).foldl
          (fun par2 vw =>
            let v := vw.1
            if v ∈ W then
              match dist v with
              | ⊤ => par2
              | some dv =>
                if qabsSub (qadd du vw.2) dv ≤ EPS then
                  let claim : Bool := match par2 v with
                    | none => true
                    | some p => decide (dist u < dist p)
                  if claim then Function.update par2 v (some u) else par2
                else par2
            else par2)
          par)
    (fun _ => none)

/-- Stable insertion into a vertex list sorted ascending by `dist`
(models the stable JS sort with comparator `dist[a] - dist[b]`;
`Infinity - Infinity` is `NaN`, treated as a tie, which the `<` test
below reproduces). -/
def sortVertInsert (dist : DistArr) (v : ℕ) : List ℕ → List ℕ
  | [] => [v]
  | u :: us => if dist v < dist u then v :: u :: us else u :: sortVertInsert dist v us

/-- The sort `[...W].sort((a, b) => dist[a] - dist[b])`. -/
def sortVertByDist (dist : DistArr) : List ℕ → List ℕ
  | [] => []
  | v :: vs => sortVertInsert dist v (sortVertByDist dist vs)

/-- Subtree sizes: every vertex of the order starts at 1, then one pass
in ascending-`dist` order adds `size[v]` onto `size[parent[v]]`. -/
def subtreeSizes (order : List ℕ) (parent : ℕ → Option ℕ) : ℕ → ℕ :=
  let s0 := order.foldl (fun s v => Function.update s v 1) (fun _ => 0)
  order.foldl
    (fun s v =>
      match parent v with
      | none => s
      | some p => Function.update s p (s p + s v))
    s0

/-- Result of `findPivots`: discovered set `W`, pivot set `P`, and the
mutated distance array. -/
structure PivotsOut where
  W : List ℕ
  P : List ℕ
  dist : DistArr

/-- Function `findPivots(g, B, S, k, dist)`: seed `W` with the distinct elements
of `S` (frontier `W₀` is `[...S]` verbatim), run up to `k` bounded
rounds, return `P = S` on explosion, otherwise build the tight forest,
size its subtrees in ascending-`dist` order, and keep the parentless
`s ∈ S` whose subtree reaches `k`. -/
def findPivots (g : GSRGraph) (B : Val) (S : List ℕ) (k : ℕ) (dist : DistArr) :
    PivotsOut :=
  let W0 := S.foldl (fun W u => if u ∈ W then W else W ++ [u]) []
  let r := fpRounds g B (k * S.length) k S W0 dist
  if r.exploded then ⟨r.W, S, r.dist⟩
  else
    let parent := tightParents g r.W r.dist
    let order := sortVertByDist r.dist r.W
    let size := subtreeSizes order parent
    ⟨r.W, S.filter (fun s => parent s = none ∧ k ≤ size s), r.dist⟩

/-! ## The shared closure-based binary min-heap

`baseCase`, the completion pass in the second `bmssp.ts` copy, and
`dijkstraSSSP` each inline the same `push`/`up`/`pop`/`down` helpers
over an array of `{ v, d }` items; they are embedded once here.  The
sift loops recurse on an index that moves strictly towards `0` (up) or
past the array length (down), so the array length bounds both and is
used as structural fuel. -/

/-- A heap entry `{ v, d }`. -/
structure HeapItem where
  v : ℕ
  d : Val
deriving Repr, DecidableEq

/-- Read `heap[i]` (in range for every access the source performs). -/
def hget (h : List HeapItem) (i : ℕ) : HeapItem :=
  h.getD i ⟨0, ⊤⟩

/-- Swap `heap[i]` and `heap[j]`. -/
def hswap (h : List HeapItem) (i j : ℕ) : List HeapItem :=
  (h.set i (hget h j)).set j (hget h i)

/-- The `up(i)` sift loop. -/
def siftUpF : ℕ → List HeapItem → ℕ → List HeapItem
  | 0, h, _ => h
  | fuel + 1, h, i =>
    if i = 0 then h
    else
      let p := (i - 1) / 2
      if (hget h p).d ≤ (hget h i).d then h
      else siftUpF fuel (hswap h p i) p

/-- Heap `push(it)`: append then sift up from the last slot. -/
def hpush (h : List HeapItem) (it : HeapItem) : List HeapItem :=
  let h1 := h ++ [it]
  siftUpF h1.length h1 (h1.length - 1)

/-- The `down(i)` sift loop. -/
def siftDownF : ℕ → List HeapItem → ℕ → List HeapItem
  | 0, h, _ => h
  | fuel + 1, h, i =>
    let l := 2 * i + 1
    let r := l + 1
    let m1 := if l < h.length ∧ (hget h l).d < (hget h i).d then l else i
    let m2 := if r < h.length ∧ (hget h r).d < (hget h m1).d then r else m1
    if m2 = i then h else siftDownF fuel (hswap h m2 i) m2

/-- Heap `pop()`: return the root, move the last element to the root and
sift down (or leave the heap empty when it held one item). -/
def hpop (h : List HeapItem) : Option (HeapItem × List HeapItem) :=
  match h with
  | [] => none
  | top :: _ =>
    let last := h.getLast?.getD ⟨0, ⊤⟩
    let rest := h.dropLast
    if rest.isEmpty then some (top, [])
    else some (top, siftDownF rest.length (rest.set 0 last) 0)

/-! ## BaseCase (`baseCase.ts`) -/

/-- The result shape `(B′, U)` plus the mutated shared arrays; also the
result type of every `BMSSP_level` call. -/
structure LevelOut where
  Bprime : Val
  U : List ℕ
  dist : DistArr
  pred : PredArr

/-- One edge step of the bounded relax-and-push loop shared (as an
inlined closure) by `baseCase` and the completion pass: reject
`¬(nd < B)`, then on strict improvement write `dist`/`pred` and push. -/
def baseRelaxStep (B : Val) (u : ℕ)
    (st : List HeapItem × DistArr × PredArr) (vw : ℕ × ℚ) :
    List HeapItem × DistArr × PredArr :=
  let v := vw.1
  let nd : Val := vadd (st.2.1 u) vw.2
  if ¬ nd < B then st
  else if nd < st.2.1 v then
    (hpush st.1 ⟨v, nd⟩, Function.update st.2.1 v nd, predSet st.2.2 v u)
  else st

/-- State after the `baseCase` extraction loop exits. -/
structure BaseLoopOut where
  U0 : List ℕ
  dist : DistArr
  pred : PredArr

/-- The `while (heap.length && U0.length < k + 1)` loop of `baseCase`
(`cap` is `k + 1`): pop, skip stale entries (`it.d !== dist[u]`), settle
`u`, and relax its out-edges accepting only `nd < B`, pushing on strict
improvement.  The source's `inHeap` flag is dead (both branches push
identically) and is omitted. -/
def baseCaseLoop (g : GSRGraph) (B : Val) (cap : ℕ) :
    ℕ → List HeapItem → List ℕ → DistArr → PredArr → Option BaseLoopOut
  | 0, _, _, _, _ => none
  | fuel + 1, heap, U0, dist, pred =>
    if heap.isEmpty ∨ cap ≤ U0.length then some ⟨U0, dist, pred⟩
    else
      match hpop heap with
      | none => some ⟨U0, dist, pred⟩
      | some (it, heap1) =>
        if it.d ≠ dist it.v then baseCaseLoop g B cap fuel heap1 U0 dist pred
        else
          let u := it.v
          let st := (g.outEdges u).foldl (baseRelaxStep B u) (heap1, dist, pred)
          baseCaseLoop g B cap fuel st.1 (U0 ++ [u]) st.2.1 st.2.2

/-- The `-Infinity`-seeded running maximum `max{dist[v] : v ∈ U₀}`.
Every distance exceeds `-Infinity`, so folding from the head of the
list is exact; the branch using this has `|U₀| = k + 1 ≥ 1`, so the
empty case is unreachable. -/
def maxDistOver (dist : DistArr) : List ℕ → Val
  | [] => ⊤
  | v :: vs => vs.foldl (fun acc u => if acc < dist u then dist u else acc) (dist v)

/-- Function `baseCase(g, x, B, k, dist, pred)`: seed the heap with
`(x, dist[x])`, run the capped bounded Dijkstra loop, then either
return `(B, U₀)` when at most `k` vertices settled, or report
`B′ = max dist` over the settled `U₀` and keep those strictly below. -/
def baseCase (g : GSRGraph) (x : ℕ) (B : Val) (k : ℕ)
    (dist : DistArr) (pred : PredArr) (fuel : ℕ) : Option LevelOut :=
  (baseCaseLoop g B (k + 1) fuel (hpush [] ⟨x, dist x⟩) [] dist pred).map fun out =>
    if out.U0.length ≤ k then ⟨B, out.U0, out.dist, out.pred⟩
    else
      let Bp := maxDistOver out.dist out.U0
      ⟨Bp, out.U0.filter (fun v => out.dist v < Bp), out.dist, out.pred⟩

/-! ## The BMSSP recursion, both copies (`bmssp.ts`) -/

/-- The type of one recursion level: fuel, `B`, `S`, `dist`, `pred` to
`(B′, U)` plus the mutated arrays. -/
abbrev LevelFun := ℕ → Val → List ℕ → DistArr → PredArr → Option LevelOut

/-- Level 0 seed selection: `S[0]`, replaced by the first element of
minimum current `dist` when `|S| > 1` (strict `<`, so ties keep the
earliest).  Callers never pass an empty `S`; `0` stands in for the
undefined `S[0]` of that unreachable path. -/
def pickMinDist (S : List ℕ) (dist : DistArr) : ℕ :=
  match S with
  | [] => 0
  | x :: _ =>
    (S.foldl (fun (bb : Val × ℕ) s => if dist s < bb.1 then (dist s, s) else bb)
      (dist x, x)).2

/-- Level `0` of both copies: delegate to `baseCase`. -/
def levelZero (g : GSRGraph) (k : ℕ) : LevelFun := fun fuel B S dist pred =>
  baseCase g (pickMinDist S dist) B k dist pred fuel

/-- The per-iteration relax-and-classify sweep over `Uᵢ`, identical in
both copies: `du` captured per `u`, non-finite `du` skips the vertex;
an edge with `nd ≤ dist[v]` tightens strictly, then goes to
`Q.insert` when `Bᵢ ≤ nd < B`, or to the local buffer `K` when
`B′ᵢ ≤ nd < Bᵢ`, else nowhere.  Note the write is not bounded. -/
structure ClassifyOut where
  Q : PSQueue
  K : List Pair
  dist : DistArr
  pred : PredArr

/-- One edge step of the relax-and-classify sweep of the band loops
(both copies): see `classifyRelax`. -/
def classifyStep (B Bi Bpi : Val) (u : ℕ) (du : ℚ)
    (st2 : ClassifyOut) (vw : ℕ × ℚ) : ClassifyOut :=
  let v := vw.1
  let nd : Val := ((qadd du vw.2 : ℚ) : Val)
  if nd ≤ st2.dist v then
    let dist' := if nd < st2.dist v then Function.update st2.dist v nd else st2.dist
    let pred' := if nd < st2.dist v then predSet st2.pred v u else st2.pred
    if Bi ≤ nd ∧ nd < B then ⟨st2.Q.insert ⟨v, nd⟩, st2.K, dist', pred'⟩
    else if Bpi ≤ nd ∧ nd < Bi then ⟨st2.Q, st2.K ++ [⟨v, nd⟩], dist', pred'⟩
    else ⟨st2.Q, st2.K, dist', pred'⟩
  else st2

/-- See `ClassifyOut`. -/
def classifyRelax (g : GSRGraph) (B Bi Bpi : Val) (Ui : List ℕ)
    (Q : PSQueue) (dist : DistArr) (pred : PredArr) : ClassifyOut :=
  Ui.foldl
    (fun st u =>
      match st.dist u with
      | ⊤ => st
      | some du =>
        (g.outEdges u).foldl (classifyStep B Bi Bpi u du) st)
    ⟨Q, [], dist, pred⟩

/-- The elements of `Sᵢ` whose current distance fell into `[B′ᵢ, Bᵢ)`,
to be batch-prepended back, in `Sᵢ` order. -/
def backList (Si : List ℕ) (Bpi Bi : Val) (dist : DistArr) : List Pair :=
  Si.foldl (fun acc x => if Bpi ≤ dist x ∧ dist x < Bi then acc ++ [⟨x, dist x⟩] else acc) []

/-- Loop state shared by both copies of the band loop. -/
structure LoopOut where
  Q : PSQueue
  U : List ℕ
  Bpi : Val
  dist : DistArr
  pred : PredArr

/-- The band loop of the `src/sssp/bmssp/bmssp.ts` copy: guarded by the
soft cap `U.length < cap` and by queue emptiness, it pulls `(Sᵢ, Bᵢ)`,
recurses one level down, accumulates `Uᵢ`, tracks the running minimum
`Bprime_i`, classifies the relaxations, batch-prepends `K` (when
non-empty) and then the back-routed `Sᵢ` remnant (when non-empty). -/
def bmsspLoopNamed (g : GSRGraph) (B : Val) (cap : ℕ)
    (recur : Val → List ℕ → DistArr → PredArr → Option LevelOut) :
    ℕ → PSQueue → List ℕ → Val → DistArr → PredArr → Option LoopOut
  | 0, _, _, _, _, _ => none
  | fuel + 1, Q, U, Bpi, dist, pred =>
    if ¬ U.length < cap then some ⟨Q, U, Bpi, dist, pred⟩
    else if Q.isEmpty then some ⟨Q, U, Bpi, dist, pred⟩
    else
      let pl := Q.pull
      let Si := pl.1
      let Bi := pl.2.1
      let Q1 := pl.2.2
      if Si = [] then some ⟨Q1, U, Bpi, dist, pred⟩
      else do
        let sub ← recur Bi Si dist pred
        let Bpi' := min Bpi sub.Bprime
        let c := classifyRelax g B Bi sub.Bprime sub.U Q1 sub.dist sub.pred
        let Q2 := if c.K = [] then c.Q else c.Q.batchPrepend c.K
        let back := backList Si sub.Bprime Bi c.dist
        let Q3 := if back = [] then Q2 else Q2.batchPrepend back
        bmsspLoopNamed g B cap recur fuel Q3 (U ++ sub.U) Bpi' c.dist c.pred

/-- One level `l + 1` of the `src/sssp/bmssp/bmssp.ts` copy, built from
the level-`l` function `prev`: find pivots (no fallback on empty `P`),
seed a `PSQueue(M, B)` with the pivots at their current distances,
initialise `Bprime_i` to the minimum pivot distance (demoted to `B`
when not finite, or when `P` is empty), run the capped band loop, then
report `B′ = B` on queue-empty success (else the tracked `Bprime_i`)
and append `extraW = {x ∈ W : dist[x] < B′}` to `U` with no further
propagation.  `M = max(4, 2^((l)·max(1, t/4)))` and the soft cap
`k²·max(1, 2^((l+1)·max(1, t/6)))` use natural division for `t/4` and
`t/6`; this matches the source's floating-point arithmetic exactly
whenever `t ≤ 4` (resp. `t ≤ 6`), which holds for every `n ≤ e⁸`. -/
def levelStepNamed (g : GSRGraph) (k t : ℕ) (l : ℕ) (prev : LevelFun) : LevelFun :=
  fun fuel B S dist pred =>
    let fp := findPivots g B S k dist
    let M := max 4 (2 ^ (l * max 1 (t / 4)))
    let Q := fp.P.foldl (fun q x => q.insert ⟨x, fp.dist x⟩) (PSQueue.make M B)
    let Bpi0 : Val := if fp.P = [] then B else fp.P.foldl (fun m p => min m (fp.dist p)) ⊤
    let Bpi1 := if Bpi0 = ⊤ then B else Bpi0
    let cap := k * k * max 1 (2 ^ ((l + 1) * max 1 (t / 6)))
    (bmsspLoopNamed g B cap (prev fuel) fuel Q [] Bpi1 fp.dist pred).map fun lo =>
      let Bout := if lo.Q.isEmpty then B else lo.Bpi
      let extraW := fp.W.filter (fun x => lo.dist x < Bout)
      ⟨Bout, lo.U ++ extraW, lo.dist, lo.pred⟩

/-- Recursion `BMSSP_level` of the `src/sssp/bmssp/bmssp.ts` copy, by recursion
on the level index. -/
def BMSSP_level (g : GSRGraph) (k t : ℕ) (l : ℕ) : LevelFun :=
  Nat.rec (levelZero g k) (fun l' prev => levelStepNamed g k t l' prev) l

/-- The band loop of the other `bmssp.ts` copy: identical body but
processed strictly until the queue is empty (no soft cap, no
`Bprime_i` tracking). -/
def bmsspLoop08 (g : GSRGraph) (B : Val)
    (recur : Val → List ℕ → DistArr → PredArr → Option LevelOut) :
    ℕ → PSQueue → List ℕ → DistArr → PredArr → Option LoopOut
  | 0, _, _, _, _ => none
  | fuel + 1, Q, U, dist, pred =>
    if Q.isEmpty then some ⟨Q, U, B, dist, pred⟩
    else
      let pl := Q.pull
      let Si := pl.1
      let Bi := pl.2.1
      let Q1 := pl.2.2
      if Si = [] then some ⟨Q1, U, B, dist, pred⟩
      else do
        let sub ← recur Bi Si dist pred
        let c := classifyRelax g B Bi sub.Bprime sub.U Q1 sub.dist sub.pred
        let Q2 := if c.K = [] then c.Q else c.Q.batchPrepend c.K
        let back := backList Si sub.Bprime Bi c.dist
        let Q3 := if back = [] then Q2 else Q2.batchPrepend back
        bmsspLoop08 g B recur fuel Q3 (U ++ sub.U) c.dist c.pred

/-- The bounded multi-source Dijkstra of the completion-propagation
pass: standard lazy-deletion loop over the shared heap, accepting only
edges with `nd < B`. -/
def completionLoop (g : GSRGraph) (B : Val) :
    ℕ → List HeapItem → DistArr → PredArr → Option (DistArr × PredArr)
  | 0, _, _, _ => none
  | fuel + 1, heap, dist, pred =>
    match hpop heap with
    | none => some (dist, pred)
    | some (it, h1) =>
      if it.d ≠ dist it.v then completionLoop g B fuel h1 dist pred
      else
        let st := (g.outEdges it.v).foldl (baseRelaxStep B it.v) (h1, dist, pred)
        completionLoop g B fuel st.1 st.2.1 st.2.2

/-- One level `l + 1` of the other `bmssp.ts` copy: pivots fall back to
`S` when empty (`P0.length ? P0 : [...S]`), the loop runs until the
queue empties, `B′ = B` always, and the nodes of `extraW` are seeded
into a bounded multi-source Dijkstra (`nd < B`) before returning
`U ∪ extraW`. -/
def levelStep08 (g : GSRGraph) (k t : ℕ) (l : ℕ) (prev : LevelFun) : LevelFun :=
  fun fuel B S dist pred =>
    let fp := findPivots g B S k dist
    let P := if fp.P = [] then S else fp.P
    let M := max 4 (2 ^ (l * max 1 (t / 4)))
    let Q := P.foldl (fun q x => q.insert ⟨x, fp.dist x⟩) (PSQueue.make M B)
    do
      let lo ← bmsspLoop08 g B (prev fuel) fuel Q [] fp.dist pred
      let extraW := fp.W.filter (fun x => lo.dist x < B)
      if extraW = [] then some ⟨B, lo.U ++ extraW, lo.dist, lo.pred⟩
      else
        let heap0 := extraW.foldl (fun h u => hpush h ⟨u, lo.dist u⟩) []
        let fin ← completionLoop g B fuel heap0 lo.dist lo.pred
        some ⟨B, lo.U ++ extraW, fin.1, fin.2⟩

/-- Recursion `BMSSP_level` of the other `bmssp.ts` copy. -/
def BMSSP08_level (g : GSRGraph) (k t : ℕ) (l : ℕ) : LevelFun :=
  Nat.rec (levelZero g k) (fun l' prev => levelStep08 g k t l' prev) l

/-! ## Drivers and the Dijkstra oracle -/

/-- One edge step of the unbounded relax-and-push loop of
`dijkstraSSSP`. -/
def dijkstraRelaxStep (u : ℕ)
    (st : List HeapItem × DistArr × PredArr) (vw : ℕ × ℚ) :
    List HeapItem × DistArr × PredArr :=
  let v := vw.1
  let nd : Val := vadd (st.2.1 u) vw.2
  if nd < st.2.1 v then
    (hpush st.1 ⟨v, nd⟩, Function.update st.2.1 v nd, predSet st.2.2 v u)
  else st

/-- The lazy-deletion Dijkstra loop of `dijkstraSSSP` (identical in
both copies of `dijkstra.ts` kept in the repository). -/
def dijkstraLoop (g : GSRGraph) :
    ℕ → List HeapItem → (ℕ → Bool) → DistArr → PredArr → Option (DistArr × PredArr)
  | 0, _, _, _, _ => none
  | fuel + 1, heap, visited, dist, pred =>
    match hpop heap with
    | none => some (dist, pred)
    | some (it, h1) =>
      if visited it.v then dijkstraLoop g fuel h1 visited dist pred
      else
        let u := it.v
        let st := (g.outEdges u).foldl (dijkstraRelaxStep u) (h1, dist, pred)
        dijkstraLoop g fuel st.1 (Function.update visited u true) st.2.1 st.2.2

/-- The initial distance array: `Infinity` everywhere except
`dist[src] = 0`. -/
def initDist (src : ℕ) : DistArr := fun v => if v = src then ((0 : ℚ) : Val) else ⊤

/-- The initial predecessor array, allocated on request. -/
def initPred (retPred : Bool) : PredArr :=
  if retPred then some fun _ => (-1 : ℤ) else none

/-- Oracle `dijkstraSSSP(g, { source, returnPredecessors })`: out-of-range
sources throw (modelled by `none`); otherwise run the heap loop from
`(src, 0)`. -/
def dijkstraSSSP (g : GSRGraph) (src : ℕ) (retPred : Bool) (fuel : ℕ) :
    Option (DistArr × PredArr) :=
  if src < g.n then
    (dijkstraLoop g fuel (hpush [] ⟨src, ((0 : ℚ) : Val)⟩) (fun _ => false)
        (initDist src) (initPred retPred)).map id
  else none

/-- The `bmSssp` driver body after parameter selection, shared by both
copies of `bmssp.ts` (they differ only in which `BMSSP_level` their
module contains; this one invokes the `src/sssp/bmssp/bmssp.ts` copy):
reject out-of-range sources, initialise `dist`/`pred`, call
`BMSSP_level(L, ∞, [src])` and return the arrays. -/
def bmSsspWith (g : GSRGraph) (src k t L : ℕ) (retPred : Bool) (fuel : ℕ) :
    Option (DistArr × PredArr) :=
  if src < g.n then
    (BMSSP_level g k t L fuel ⊤ [src] (initDist src) (initPred retPred)).map
      fun r => (r.dist, r.pred)
  else none

/-- Parameter `ℓ = max(1, ln(max(2, n)))`, the driver's clamped natural log.
`Math.log` is modelled by the real logarithm: at every `n` used in the
theorems below the value sits far from the floor/ceil decision
boundaries, so double rounding cannot change any derived parameter. -/
noncomputable def lnParam (n : ℕ) : ℝ := max 1 (Real.log (max 2 (n : ℝ)))

/-- Parameter `k = max(2, ⌊cbrt ℓ⌋)`. -/
noncomputable def paramK (n : ℕ) : ℕ := max 2 ⌊lnParam n ^ ((1 : ℝ) / 3)⌋₊

/-- Parameter `t = max(1, ⌊cbrt (ℓ·ℓ)⌋)`. -/
noncomputable def paramT (n : ℕ) : ℕ := max 1 ⌊(lnParam n * lnParam n) ^ ((1 : ℝ) / 3)⌋₊

/-- Parameter `L = max(1, ⌈ℓ / max(1, t)⌉)`. -/
noncomputable def paramL (n : ℕ) : ℕ := max 1 ⌈lnParam n / max 1 (paramT n : ℝ)⌉₊

/-- Driver `bmSssp(g, opts)` with the parameters the driver computes from `n`. -/
noncomputable def bmSssp (g : GSRGraph) (src : ℕ) (retPred : Bool) (fuel : ℕ) :
    Option (DistArr × PredArr) :=
  bmSsspWith g src (paramK g.n) (paramT g.n) (paramL g.n) retPred fuel

/-! ## Concrete inputs used by the counterexample evaluations -/

set_option maxRecDepth 100000

/-- Spec scenario S2: `n = 6`, edges
`(0→1,2), (0→2,3), (1→3,2), (1→5,10), (2→3,2), (3→4,1)` in CSR layout,
expected distances from source 0: `[0, 2, 3, 4, 5, 12]`. -/
def gS2 : GSRGraph := ⟨6, 6, [0, 2, 4, 5, 6, 6, 6], [1, 2, 3, 5, 3, 4], [2, 3, 2, 10, 2, 1]⟩

/-- The six-vertex unit-weight chain `0 → 1 → 2 → 3 → 4 → 5`. -/
def gChain6 : GSRGraph := ⟨6, 5, [0, 1, 2, 3, 4, 5, 5], [1, 2, 3, 4, 5], [1, 1, 1, 1, 1]⟩

/-- Two vertices, a zero-weight self-loop `0 → 0` and an edge `0 → 1`
of weight 5.  With `B = 2`, `S = [0]`, `k = 2` the self-loop gives `0` a
tight parent (itself), so `findPivots` returns `P = []`. -/
def gSelfLoop : GSRGraph := ⟨2, 2, [0, 2, 2], [0, 1], [0, 5]⟩

/-- One edge `0 → 1` of weight 1. -/
def gOneEdge : GSRGraph := ⟨2, 1, [0, 1, 1], [1], [1]⟩

/-- Distances `[0, 1]`: vertex 1 already holds exactly `dist[0] + w(0,1)`. -/
def dEq01 : DistArr := fun v => if v = 0 then ((0 : ℚ) : Val) else if v = 1 then ((1 : ℚ) : Val) else ⊤

/-- A present predecessor array, all `-1`. -/
def pAllNeg : PredArr := some fun _ => (-1 : ℤ)

/-- The five-insert `PSQueue` state refuting the pulled-val-vs-bound
law: `M = 3`, `B = 100`, inserts `(1,5), (2,2), (3,1), (4,6), (5,3)`
leave blocks `[[(1,5),(2,2),(3,1)], [(4,6),(5,3)]]`. -/
def qFive : PSQueue :=
  (((((PSQueue.make 3 100).insert ⟨1, 5⟩).insert ⟨2, 2⟩).insert ⟨3, 1⟩).insert ⟨4, 6⟩).insert ⟨5, 3⟩

/-- A walk of the CSR graph from `s` to a vertex, with its total
weight: the semantic notion of reachability the distance array is
measured against. -/
inductive Reach (g : GSRGraph) (s : ℕ) : ℕ → ℚ → Prop where
  | source : Reach g s s 0
  | step {u : ℕ} {c : ℚ} {v : ℕ} {w : ℚ} :
      Reach g s u c → (v, w) ∈ g.outEdges u → Reach g s v (c + w)

/-- Every finite entry of the array is the weight of an actual walk. -/
def Realizable (g : GSRGraph) (s : ℕ) (d : DistArr) : Prop :=
  ∀ v, d v ≠ ⊤ → ∃ c : ℚ, Reach g s v c ∧ d v = (c : Val)

/-- Pointwise order on distance arrays. -/
def DistLE (d1 d2 : DistArr) : Prop := ∀ v, d1 v ≤ d2 v

/-- Property: `lb` is a lower bound of every walk weight — in particular of the
true shortest-path distance, which is the greatest such bound. -/
def IsShortestLB (g : GSRGraph) (s : ℕ) (lb : DistArr) : Prop :=
  ∀ (v : ℕ) (c : ℚ), Reach g s v c → lb v ≤ (c : Val)

/-- A one-edge graph (weight 3) for the C7 instance. -/
def gW7 : GSRGraph := ⟨2, 1, [0, 1, 1], [1], [3]⟩

/-- A one-edge graph for the C10 seed-exemption instance. -/
def gW10 : GSRGraph := ⟨2, 1, [0, 1, 1], [1], [1]⟩

/-- Distances `[5, ∞]`: the seed's own distance exceeds the bound 0. -/
def dW10 : DistArr := fun v => if v = 0 then ((5 : ℚ) : Val) else ⊤

/-- A three-pair queue for the C2 instance. -/
def qW2 : PSQueue :=
  (((PSQueue.make 2 ((9 : ℚ) : Val)).insert ⟨1, 2⟩).insert ⟨2, 4⟩).insert ⟨3, 7⟩

/-- A two-vertex graph with a weight-2 edge for the C8 instance. -/
def gW8 : GSRGraph := ⟨2, 1, [0, 1, 1], [1], [2]⟩

/-! ## Theorems

First the lemmas identifying the reduction-friendly arithmetic layer
with the standard operations. -/

/-- The function `qadd` is rational addition. -/
theorem qadd_eq_add (a b : ℚ) : qadd a b = a + b := (Rat.add_def' a b).symm

/-- The function `qsub` is rational subtraction. -/
theorem qsub_eq_sub (a b : ℚ) : qsub a b = a - b := (Rat.sub_def' a b).symm

/-- The function `qabsSub` is the absolute difference. -/
theorem qabsSub_eq (a b : ℚ) : qabsSub a b = |a - b| := by
  unfold qabsSub
  rcases le_or_lt a b with h | h
  · rw [if_pos h, qsub_eq_sub, abs_sub_comm, abs_of_nonneg (sub_nonneg.mpr h)]
  · rw [if_neg (not_le.mpr h), qsub_eq_sub, abs_of_nonneg (sub_nonneg.mpr h.le)]

/-- The function `vadd` is `WithTop` addition with a finite right operand. -/
theorem vadd_eq (a : Val) (w : ℚ) : vadd a w = a + (w : Val) := by
  cases a with
  | none => rfl
  | some q =>
    show ((qadd q w : ℚ) : Val) = ((q : ℚ) : Val) + ((w : ℚ) : Val)
    rw [qadd_eq_add, ← WithTop.coe_add]

/-- The constant `EPS` is `1e-12`. -/
theorem EPS_eq : EPS = 1 / 10 ^ 12 := by
  unfold EPS
  rw [Rat.mkRat_eq_div]
  norm_num

/-! ### PSQueue multiset accounting (towards claim C9) -/

/-- The function `sortInsert` permutes. -/
theorem sortInsert_perm (p : Pair) (l : List Pair) : (sortInsert p l).Perm (p :: l) := by
  induction l with
  | nil => simp [sortInsert]
  | cons q qs ih =>
    unfold sortInsert
    by_cases h : p.val < q.val
    · rw [if_pos h]
    · rw [if_neg h]
      exact (ih.cons q).trans (List.Perm.swap p q qs)

/-- The function `sortByVal` permutes. -/
theorem sortByVal_perm (l : List Pair) : (sortByVal l).Perm l := by
  induction l with
  | nil => simp [sortByVal]
  | cons p ps ih => exact (sortInsert_perm p (sortByVal ps)).trans (ih.cons p)

/-- The insert placement index never passes the end of the block list. -/
theorem findBlockIdx_le (v : Val) (bs : List (List Pair)) : findBlockIdx v bs ≤ bs.length := by
  induction bs with
  | nil => simp [findBlockIdx]
  | cons b rest ih =>
    unfold findBlockIdx
    cases b.getLast? with
    | none => simp
    | some last =>
      by_cases h : v ≤ last.val
      · simp [h]
      · simp only [if_neg h, List.length_cons]
        omega

/-- Flatten decomposition at an in-range index. -/
theorem flatten_decomp (bs : List (List Pair)) (i : ℕ) (h : i < bs.length) :
    bs.flatten = (bs.take i).flatten ++ (bs.getD i [] ++ (bs.drop (i + 1)).flatten) := by
  induction bs generalizing i with
  | nil => simp at h
  | cons b rest ih =>
    cases i with
    | zero => simp [List.getD]
    | succ i =>
      have hi : i < rest.length := by simpa using h
      simp only [List.flatten_cons, List.take_succ_cons, List.drop_succ_cons,
        List.getD_cons_succ, ih i hi, List.append_assoc]

/-- Flatten of a `set` at an in-range index. -/
theorem flatten_set_decomp (bs : List (List Pair)) (i : ℕ) (b' : List Pair) (h : i < bs.length) :
    (bs.set i b').flatten = (bs.take i).flatten ++ (b' ++ (bs.drop (i + 1)).flatten) := by
  induction bs generalizing i with
  | nil => simp at h
  | cons b rest ih =>
    cases i with
    | zero => simp
    | succ i =>
      have hi : i < rest.length := by simpa using h
      simp only [List.set_cons_succ, List.flatten_cons, List.take_succ_cons,
        List.drop_succ_cons, ih i hi, List.append_assoc]

/-- The function `insert` bumps the pair counter by one. -/
theorem insert_size (q : PSQueue) (p : Pair) : (q.insert p).size = q.size + 1 := rfl

/-- Flatten of `A ++ [x, y] ++ C`. -/
theorem flatten_three (A : List (List Pair)) (x y : List Pair) (C : List (List Pair)) :
    (A ++ [x, y] ++ C).flatten = A.flatten ++ ((x ++ y) ++ C.flatten) := by
  simp [List.flatten_append, List.append_assoc]

/-- Moving one appended element to the front, up to permutation. -/
theorem middle_perm (D G R : List Pair) (p : Pair) :
    (D ++ ((G ++ [p]) ++ R)).Perm (p :: (D ++ (G ++ R))) := by
  have h1 : D ++ ((G ++ [p]) ++ R) = (D ++ G) ++ (p :: R) := by
    simp [List.append_assoc]
  have h3 : p :: ((D ++ G) ++ R) = p :: (D ++ (G ++ R)) := by
    simp [List.append_assoc]
  rw [h1, ← h3]
  exact List.perm_middle

/-- The block-update step of `insert` (split or in-place append) adds
exactly `p` to the flattened contents. -/
theorem insert_branch_perm (bs : List (List Pair)) (i M : ℕ) (p : Pair) (hi : i < bs.length) :
    ((if M < (bs.getD i [] ++ [p]).length then
        bs.take i ++ [(sortByVal (bs.getD i [] ++ [p])).take (((bs.getD i [] ++ [p]).length + 1) / 2),
          (sortByVal (bs.getD i [] ++ [p])).drop (((bs.getD i [] ++ [p]).length + 1) / 2)] ++
            bs.drop (i + 1)
      else bs.set i (bs.getD i [] ++ [p])).flatten).Perm (p :: bs.flatten) := by
  have hdec := flatten_decomp bs i hi
  by_cases h : M < (bs.getD i [] ++ [p]).length
  · rw [if_pos h, flatten_three, List.take_append_drop]
    have s1 : ((bs.take i).flatten ++ (sortByVal (bs.getD i [] ++ [p]) ++ (bs.drop (i + 1)).flatten)).Perm
        ((bs.take i).flatten ++ ((bs.getD i [] ++ [p]) ++ (bs.drop (i + 1)).flatten)) :=
      ((sortByVal_perm (bs.getD i [] ++ [p])).append_right _).append_left _
    have s2 := middle_perm (bs.take i).flatten (bs.getD i []) (bs.drop (i + 1)).flatten p
    rw [← hdec] at s2
    exact s1.trans s2
  · rw [if_neg h, flatten_set_decomp bs i _ hi]
    have s2 := middle_perm (bs.take i).flatten (bs.getD i []) (bs.drop (i + 1)).flatten p
    rw [← hdec] at s2
    exact s2

/-- The function `insert` adds exactly the inserted pair to the stored multiset. -/
theorem insert_pairs_perm (q : PSQueue) (p : Pair) : (q.insert p).pairs.Perm (p :: q.pairs) := by
  unfold PSQueue.insert PSQueue.pairs
  simp only
  set bs := (if findBlockIdx p.val q.blocks = q.blocks.length then q.blocks ++ [[]] else q.blocks)
    with hbs
  have hle : findBlockIdx p.val q.blocks ≤ q.blocks.length := findBlockIdx_le p.val q.blocks
  have hlen1 : (q.blocks ++ [[]]).length = q.blocks.length + 1 := by
    simp
  have hi : findBlockIdx p.val q.blocks < bs.length := by
    rw [hbs]
    split
    · rename_i heq
      rw [hlen1]
      omega
    · rename_i hne
      omega
  have hf0 : bs.flatten = q.blocks.flatten := by
    rw [hbs]
    split
    · simp
    · rfl
  rw [← hf0]
  exact insert_branch_perm bs (findBlockIdx p.val q.blocks) q.M p hi

/-- Re-concatenating the chunks gives back the list. -/
theorem chunksOfAux_flatten (c : ℕ) : ∀ (fuel : ℕ) (l : List Pair),
    (chunksOfAux c fuel l).flatten = l := by
  intro fuel
  induction fuel with
  | zero =>
    intro l
    cases l with
    | nil => simp [chunksOfAux]
    | cons p ps => simp [chunksOfAux]
  | succ f ih =>
    intro l
    cases l with
    | nil => simp [chunksOfAux]
    | cons p ps =>
      unfold chunksOfAux
      by_cases h : c = 0
      · simp [h]
      · rw [if_neg h]
        simp only [List.flatten_cons, ih]
        exact List.take_append_drop c (p :: ps)

/-- Re-concatenating `chunksOf` gives back the list. -/
theorem chunksOf_flatten (c : ℕ) (l : List Pair) : (chunksOf c l).flatten = l :=
  chunksOfAux_flatten c l.length l

/-- The chunk-prepend fold of `batchPrepend`: multiset and counter. -/
theorem prependChunks_spec (chunks : List (List Pair)) (q : PSQueue) :
    ((chunks.foldl
        (fun qq chunk => ⟨qq.M, qq.B, sortByVal chunk :: qq.blocks, qq.size + chunk.length⟩)
        q).pairs.Perm (chunks.flatten ++ q.pairs)) ∧
    (chunks.foldl
        (fun qq chunk => ⟨qq.M, qq.B, sortByVal chunk :: qq.blocks, qq.size + chunk.length⟩)
        q).size = q.size + chunks.flatten.length := by
  induction chunks generalizing q with
  | nil => simp [PSQueue.pairs]
  | cons ch cs ih =>
    simp only [List.foldl_cons, List.flatten_cons]
    have step : (PSQueue.mk q.M q.B (sortByVal ch :: q.blocks) (q.size + ch.length)).pairs
        = sortByVal ch ++ q.pairs := by
      simp [PSQueue.pairs]
    refine ⟨?_, ?_⟩
    · have h1 := (ih (PSQueue.mk q.M q.B (sortByVal ch :: q.blocks) (q.size + ch.length))).1
      rw [step] at h1
      have h2 : (cs.flatten ++ (sortByVal ch ++ q.pairs)).Perm
          (cs.flatten ++ (ch ++ q.pairs)) :=
        ((sortByVal_perm ch).append_right q.pairs).append_left cs.flatten
      have h3 : (cs.flatten ++ (ch ++ q.pairs)).Perm ((ch ++ cs.flatten) ++ q.pairs) := by
        have := (@List.perm_append_comm _ cs.flatten ch).append_right q.pairs
        rw [List.append_assoc] at this
        exact this
      exact (h1.trans h2).trans h3
    · have h1 := (ih (PSQueue.mk q.M q.B (sortByVal ch :: q.blocks) (q.size + ch.length))).2
      simp only [h1, List.length_append]
      omega

/-- The defensive partition fold of `batchPrepend`: whatever goes to
`insert` and whatever is retained for prepending together account for
every element of `L`, in multiset and in count. -/
theorem partition_fold_spec (curMin : Val) (L : List Pair) :
    ∀ (q : PSQueue) (acc : List Pair),
    (((L.foldl (fun (a : PSQueue × List Pair) p =>
        if p.val < curMin then (a.1, a.2 ++ [p]) else (a.1.insert p, a.2)) (q, acc)).1.pairs ++
      (L.foldl (fun (a : PSQueue × List Pair) p =>
        if p.val < curMin then (a.1, a.2 ++ [p]) else (a.1.insert p, a.2)) (q, acc)).2).Perm
      (q.pairs ++ (acc ++ L))) ∧
    ((L.foldl (fun (a : PSQueue × List Pair) p =>
        if p.val < curMin then (a.1, a.2 ++ [p]) else (a.1.insert p, a.2)) (q, acc)).1.size +
      (L.foldl (fun (a : PSQueue × List Pair) p =>
        if p.val < curMin then (a.1, a.2 ++ [p]) else (a.1.insert p, a.2)) (q, acc)).2.length
      = q.size + acc.length + L.length) := by
  induction L with
  | nil =>
    intro q acc
    simp
  | cons p ps ih =>
    intro q acc
    simp only [List.foldl_cons]
    by_cases h : p.val < curMin
    · rw [if_pos h]
      have := ih q (acc ++ [p])
      refine ⟨?_, ?_⟩
      · have h1 := this.1
        have he : acc ++ [p] ++ ps = acc ++ (p :: ps) := by
          simp
        rw [he] at h1
        exact h1
      · have h2 := this.2
        simp only [List.length_append, List.length_cons, List.length_nil] at h2 ⊢
        omega
    · rw [if_neg h]
      have := ih (q.insert p) acc
      refine ⟨?_, ?_⟩
      · have h1 := this.1
        have h2 : ((q.insert p).pairs ++ (acc ++ ps)).Perm ((p :: q.pairs) ++ (acc ++ ps)) :=
          (insert_pairs_perm q p).append_right _
        have h3 : ((p :: q.pairs) ++ (acc ++ ps)).Perm (q.pairs ++ (acc ++ (p :: ps))) := by
          have hmid : (q.pairs ++ acc) ++ (p :: ps) = q.pairs ++ (acc ++ (p :: ps)) := by
            simp [List.append_assoc]
          have := (@List.perm_middle _ p (q.pairs ++ acc) ps).symm
          rw [hmid] at this
          simpa using this
        exact (h1.trans h2).trans h3
      · have h2 := this.2
        rw [insert_size] at h2
        simp only [List.length_cons] at h2 ⊢
        omega

/-- Claim C9.  `batchPrepend(L)` never fails and accounts for every
element of `L`: elements not strictly below the queue minimum are
routed through `insert`, the rest are prepended in sorted chunks, and
afterwards the stored pair multiset has grown by exactly the multiset
of `L` and the pair counter by exactly `|L|`. -/
theorem c9_batchPrepend_defensive_total (q : PSQueue) (L : List Pair) :
    (q.batchPrepend L).pairs.Perm (L ++ q.pairs) ∧
    (q.batchPrepend L).size = q.size + L.length := by
  unfold PSQueue.batchPrepend
  by_cases hL : L = []
  · rw [if_pos hL, hL]
    simp
  · rw [if_neg hL]
    simp only
    have hpart := partition_fold_spec (peekGlobalMin q.blocks) L q []
    set r := L.foldl (fun (a : PSQueue × List Pair) p =>
      if p.val < peekGlobalMin q.blocks then (a.1, a.2 ++ [p]) else (a.1.insert p, a.2))
      (q, []) with hr
    by_cases hsm : r.2 = []
    · rw [if_pos hsm]
      rw [hsm] at hpart
      refine ⟨?_, ?_⟩
      · have h1 := hpart.1
        simp only [List.append_nil, List.nil_append] at h1
        exact h1.trans (@List.perm_append_comm _ q.pairs L)
      · have h2 := hpart.2
        simp only [List.length_nil] at h2
        omega
    · rw [if_neg hsm]
      have hch := prependChunks_spec (chunksOf (max 1 (q.M / 2)) r.2) r.1
      rw [chunksOf_flatten] at hch
      refine ⟨?_, ?_⟩
      · have h1 := hch.1
        have h2 : (r.2 ++ r.1.pairs).Perm (r.1.pairs ++ r.2) :=
          List.perm_append_comm
        have h3 : (r.1.pairs ++ r.2).Perm (q.pairs ++ ([] ++ L)) := hpart.1
        have h4 : (q.pairs ++ ([] ++ L)).Perm (L ++ q.pairs) := by
          simp only [List.nil_append]
          exact List.perm_append_comm
        exact ((h1.trans h2).trans h3).trans h4
      · have h2 := hch.2
        have h3 := hpart.2
        simp only [List.length_nil] at h3
        omega

/-! ### The pull bound (towards claim C2) -/

/-- The running minimum fold is a lower bound for the seed and every
scanned value. -/
theorem foldMin_le (l : List Pair) : ∀ (init : Val),
    (l.foldl (fun m p => if p.val < m then p.val else m) init ≤ init) ∧
    (∀ p ∈ l, l.foldl (fun m p => if p.val < m then p.val else m) init ≤ p.val) := by
  induction l with
  | nil => intro init; simp
  | cons p ps ih =>
    intro init
    simp only [List.foldl_cons]
    by_cases h : p.val < init
    · rw [if_pos h]
      refine ⟨le_trans (ih p.val).1 h.le, ?_⟩
      intro p2 hp2
      rcases List.mem_cons.mp hp2 with he | hm
      · rw [he]; exact (ih p.val).1
      · exact (ih p.val).2 p2 hm
    · rw [if_neg h]
      refine ⟨(ih init).1, ?_⟩
      intro p2 hp2
      rcases List.mem_cons.mp hp2 with he | hm
      · rw [he]; exact le_trans (ih init).1 (not_lt.mp h)
      · exact (ih init).2 p2 hm

/-- The running minimum fold returns the seed or a scanned value. -/
theorem foldMin_cases (l : List Pair) : ∀ (init : Val),
    l.foldl (fun m p => if p.val < m then p.val else m) init = init ∨
    ∃ p ∈ l, l.foldl (fun m p => if p.val < m then p.val else m) init = p.val := by
  induction l with
  | nil => intro init; exact Or.inl rfl
  | cons p ps ih =>
    intro init
    simp only [List.foldl_cons]
    by_cases h : p.val < init
    · rw [if_pos h]
      rcases ih p.val with he | ⟨p2, hm, he⟩
      · exact Or.inr ⟨p, List.mem_cons_self p ps, he⟩
      · exact Or.inr ⟨p2, List.mem_cons_of_mem p hm, he⟩
    · rw [if_neg h]
      rcases ih init with he | ⟨p2, hm, he⟩
      · exact Or.inl he
      · exact Or.inr ⟨p2, List.mem_cons_of_mem p hm, he⟩

/-- What `drainBlock` leaves is part of the block. -/
theorem drainBlock_rest_mem (ps : List Pair) : ∀ (c : ℕ) (x : Pair),
    x ∈ (drainBlock ps c).2 → x ∈ ps := by
  induction ps with
  | nil =>
    intro c x hx
    cases c with
    | zero => simp [drainBlock] at hx
    | succ c => simp [drainBlock] at hx
  | cons p ps ih =>
    intro c x hx
    cases c with
    | zero =>
      simp only [drainBlock] at hx
      exact hx
    | succ c =>
      simp only [drainBlock] at hx
      exact List.mem_cons_of_mem p (ih c x hx)

/-- What `drainBlocks` leaves is part of the stored pairs. -/
theorem drainBlocks_rest_mem (bs : List (List Pair)) : ∀ (c : ℕ) (x : Pair),
    x ∈ (drainBlocks bs c).2.flatten → x ∈ bs.flatten := by
  induction bs with
  | nil =>
    intro c x hx
    simp [drainBlocks] at hx
  | cons b rest ih =>
    intro c x hx
    by_cases hc : c = 0
    · rw [hc] at hx
      simpa [drainBlocks] using hx
    · simp only [drainBlocks, if_neg hc] at hx
      by_cases he : (drainBlock b c).2.isEmpty
      · rw [if_pos he] at hx
        simp only [List.flatten_cons, List.mem_append]
        exact Or.inr (ih _ x hx)
      · rw [if_neg he] at hx
        simp only [List.flatten_cons, List.mem_append] at hx ⊢
        rcases hx with hx | hx
        · exact Or.inl (drainBlock_rest_mem b c x hx)
        · exact Or.inr hx

/-- Claim C2.  Under the finite-state assumption the spec itself makes
(every stored `val` is finite, and the pair counter agrees with the
stored pairs), `pull()` returns as its bound the true minimum `val`
over every pair remaining after the removal, or the fallback `B` when
the queue was empty before or was emptied by the removal. -/
theorem c2_pull_bound_true_min (q : PSQueue)
    (hfin : ∀ p ∈ q.pairs, p.val ≠ ⊤)
    (hsz : q.size = q.pairs.length) :
    (q.pairs = [] → q.pull = ([], q.B, q)) ∧
    (q.pairs ≠ [] →
      ((q.pull.2.2.pairs ≠ [] →
          (∀ p ∈ q.pull.2.2.pairs, q.pull.2.1 ≤ p.val) ∧
          ∃ p ∈ q.pull.2.2.pairs, p.val = q.pull.2.1) ∧
        (q.pull.2.2.pairs = [] → q.pull.2.1 = q.B))) := by
  refine ⟨?_, ?_⟩
  · intro h0
    have hz : q.isEmpty = true := by
      simp [PSQueue.isEmpty, hsz, h0]
    unfold PSQueue.pull
    rw [if_pos hz]
  · intro hne
    have hz : ¬ q.isEmpty = true := by
      simp only [PSQueue.isEmpty, hsz, decide_eq_true_eq]
      exact fun h => hne (List.length_eq_zero.mp h)
    have hpull2 : q.pull.2.2.pairs = (drainBlocks q.blocks q.M).2.flatten := by
      unfold PSQueue.pull
      rw [if_neg hz]
      rfl
    have hpull1 : q.pull.2.1 = pullBound (drainBlocks q.blocks q.M).2 q.B := by
      unfold PSQueue.pull
      rw [if_neg hz]
    have hsub : ∀ p ∈ (drainBlocks q.blocks q.M).2.flatten, p ∈ q.pairs := by
      intro p hp
      exact drainBlocks_rest_mem q.blocks q.M p hp
    rw [hpull2, hpull1]
    refine ⟨?_, ?_⟩
    · intro hrne
      have hle := (foldMin_le (drainBlocks q.blocks q.M).2.flatten ⊤).2
      rcases foldMin_cases (drainBlocks q.blocks q.M).2.flatten ⊤ with htop | ⟨p, hm, he⟩
      · rcases List.exists_mem_of_ne_nil _ hrne with ⟨p0, hp0⟩
        have h1 := hle p0 hp0
        rw [htop] at h1
        exact absurd (top_le_iff.mp h1) (hfin p0 (hsub p0 hp0))
      · have hpne : p.val ≠ ⊤ := hfin p (hsub p hm)
        have hminne : peekGlobalMin (drainBlocks q.blocks q.M).2 ≠ ⊤ := by
          unfold peekGlobalMin
          rw [he]
          exact hpne
        unfold pullBound
        rw [if_neg hminne]
        refine ⟨?_, ⟨p, hm, ?_⟩⟩
        · intro p2 hp2
          exact hle p2 hp2
        · unfold peekGlobalMin
          rw [he]
    · intro hremp
      have : peekGlobalMin (drainBlocks q.blocks q.M).2 = ⊤ := by
        unfold peekGlobalMin
        rw [hremp]
        rfl
      unfold pullBound
      rw [if_pos this]

/-! ### BaseCase (towards claims C7 and C10) -/

/-- The settlement cap is a loop invariant: the loop only settles when
strictly below `cap`, so it exits with at most `cap` settled. -/
theorem baseCaseLoop_len (g : GSRGraph) (B : Val) (cap : ℕ) :
    ∀ (fuel : ℕ) (heap : List HeapItem) (U0 : List ℕ) (dist : DistArr)
      (pred : PredArr) (out : BaseLoopOut),
      baseCaseLoop g B cap fuel heap U0 dist pred = some out →
      U0.length ≤ cap → out.U0.length ≤ cap := by
  intro fuel
  induction fuel with
  | zero =>
    intro heap U0 dist pred out hsome
    simp [baseCaseLoop] at hsome
  | succ f ih =>
    intro heap U0 dist pred out hsome hle
    simp only [baseCaseLoop] at hsome
    split at hsome
    · exact (Option.some_inj.mp hsome) ▸ hle
    · rename_i hcont
      split at hsome
      · exact (Option.some_inj.mp hsome) ▸ hle
      · rename_i it heap1 hpop
        split at hsome
        · exact ih heap1 U0 dist pred out hsome hle
        · have hlt : U0.length < cap := by
            rcases not_or.mp hcont with ⟨_, h2⟩
            omega
          refine ih _ _ _ _ out hsome ?_
          simp only [List.length_append, List.length_cons, List.length_nil]
          omega

/-- The `-∞`-seeded maximum is attained on a non-empty list. -/
theorem maxDistOver_attained (dist : DistArr) (l : List ℕ) (h : l ≠ []) :
    ∃ v ∈ l, maxDistOver dist l = dist v := by
  cases l with
  | nil => exact absurd rfl h
  | cons v vs =>
    unfold maxDistOver
    have key : ∀ (ws : List ℕ) (a : ℕ),
        (ws.foldl (fun acc u => if acc < dist u then dist u else acc) (dist a) = dist a) ∨
        ∃ u ∈ ws, ws.foldl (fun acc u => if acc < dist u then dist u else acc) (dist a)
          = dist u := by
      intro ws
      induction ws with
      | nil => intro a; exact Or.inl rfl
      | cons w ws ihw =>
        intro a
        simp only [List.foldl_cons]
        by_cases hc : dist a < dist w
        · rw [if_pos hc]
          rcases ihw w with he | ⟨u, hu, he⟩
          · exact Or.inr ⟨w, List.mem_cons_self w ws, he⟩
          · exact Or.inr ⟨u, List.mem_cons_of_mem w hu, he⟩
        · rw [if_neg hc]
          rcases ihw a with he | ⟨u, hu, he⟩
          · exact Or.inl he
          · exact Or.inr ⟨u, List.mem_cons_of_mem w hu, he⟩
    rcases key vs v with he | ⟨u, hu, he⟩
    · exact ⟨v, List.mem_cons_self v vs, he⟩
    · exact ⟨u, List.mem_cons_of_mem v hu, he⟩

/-- Claim C7.  For every `baseCase` call that completes: the loop
settles at most `k + 1` vertices; with at most `k` settled it returns
`(B′ = B, U = U₀)`; with `k + 1` settled it returns
`B′ = max{dist[v] : v ∈ U₀}` and keeps exactly the settled vertices
strictly below `B′`; and in both cases the returned `U` has at most
`k` elements. -/
theorem c7_baseCase_cap_and_filter (g : GSRGraph) (x : ℕ) (B : Val) (k : ℕ)
    (dist : DistArr) (pred : PredArr) (fuel : ℕ) (r : LevelOut)
    (h : baseCase g x B k dist pred fuel = some r) :
    ∃ out : BaseLoopOut,
      baseCaseLoop g B (k + 1) fuel (hpush [] ⟨x, dist x⟩) [] dist pred = some out ∧
      out.U0.length ≤ k + 1 ∧
      (out.U0.length ≤ k → r = ⟨B, out.U0, out.dist, out.pred⟩) ∧
      (k < out.U0.length → r.Bprime = maxDistOver out.dist out.U0 ∧
        r.U = out.U0.filter (fun v => out.dist v < r.Bprime)) ∧
      r.U.length ≤ k := by
  unfold baseCase at h
  rcases Option.map_eq_some'.mp h with ⟨out, hloop, hf⟩
  have hlen : out.U0.length ≤ k + 1 :=
    baseCaseLoop_len g B (k + 1) fuel _ [] dist pred out hloop (by simp)
  refine ⟨out, hloop, hlen, ?_, ?_, ?_⟩
  · intro hle
    rw [← hf, if_pos hle]
  · intro hgt
    rw [← hf, if_neg (by omega : ¬ out.U0.length ≤ k)]
    exact ⟨rfl, rfl⟩
  · by_cases hle : out.U0.length ≤ k
    · rw [← hf, if_pos hle]
      exact hle
    · rw [← hf, if_neg hle]
      have hne : out.U0 ≠ [] := by
        intro h0
        rw [h0] at hle
        simp at hle
      rcases maxDistOver_attained out.dist out.U0 hne with ⟨v, hv, hmax⟩
      have hnot : ¬ out.dist v < maxDistOver out.dist out.U0 := by
        rw [hmax]
        exact lt_irrefl _
      have hflt : (out.U0.filter (fun v => out.dist v < maxDistOver out.dist out.U0)).length
          < out.U0.length := by
        apply List.length_filter_lt_length_iff_exists.mpr
        exact ⟨v, hv, by simpa using hnot⟩
      simp only
      omega

/-! ### Heap membership and distance monotonicity (towards C10 and C8) -/

/-- Out-of-range heap reads give the default item. -/
theorem hget_default (h : List HeapItem) (i : ℕ) (hi : h.length ≤ i) :
    hget h i = ⟨0, ⊤⟩ := by
  unfold hget
  exact List.getD_eq_default h ⟨0, ⊤⟩ hi

/-- In-range heap reads are members. -/
theorem hget_mem (h : List HeapItem) (i : ℕ) (hi : i < h.length) : hget h i ∈ h := by
  unfold hget
  rw [List.getD_eq_getElem h ⟨0, ⊤⟩ hi]
  exact List.getElem_mem hi

/-- The function `hswap` introduces no new items when both indices are in range. -/
theorem mem_hswap (h : List HeapItem) (i j : ℕ) (hi : i < h.length) (hj : j < h.length) :
    ∀ a ∈ hswap h i j, a ∈ h := by
  intro a ha
  unfold hswap at ha
  rcases List.mem_or_eq_of_mem_set ha with ha2 | rfl
  · rcases List.mem_or_eq_of_mem_set ha2 with ha3 | rfl
    · exact ha3
    · exact hget_mem h j hj
  · exact hget_mem h i hi

/-- The function `hswap` preserves length. -/
theorem hswap_length (h : List HeapItem) (i j : ℕ) : (hswap h i j).length = h.length := by
  unfold hswap
  simp

/-- The up-sift introduces no new items. -/
theorem mem_siftUpF : ∀ (fuel : ℕ) (h : List HeapItem) (i : ℕ),
    ∀ a ∈ siftUpF fuel h i, a ∈ h := by
  intro fuel
  induction fuel with
  | zero => intro h i a ha; exact ha
  | succ f ih =>
    intro h i a ha
    unfold siftUpF at ha
    by_cases h0 : i = 0
    · rw [if_pos h0] at ha; exact ha
    · rw [if_neg h0] at ha
      by_cases hle : (hget h ((i - 1) / 2)).d ≤ (hget h i).d
      · rw [if_pos hle] at ha; exact ha
      · rw [if_neg hle] at ha
        have hi : i < h.length := by
          by_contra hc
          rw [hget_default h i (le_of_not_lt hc)] at hle
          exact hle le_top
        have hp : (i - 1) / 2 < h.length := lt_of_le_of_lt (by omega) hi
        have := ih (hswap h ((i - 1) / 2) i) ((i - 1) / 2) a ha
        exact mem_hswap h _ _ hp hi a this

/-- Pushing adds at most the pushed item. -/
theorem mem_hpush (h : List HeapItem) (it : HeapItem) :
    ∀ a ∈ hpush h it, a ∈ h ∨ a = it := by
  intro a ha
  unfold hpush at ha
  have := mem_siftUpF (h ++ [it]).length (h ++ [it]) ((h ++ [it]).length - 1) a ha
  rcases List.mem_append.mp this with h1 | h2
  · exact Or.inl h1
  · exact Or.inr (List.mem_singleton.mp h2)

/-- The down-sift introduces no new items. -/
theorem mem_siftDownF : ∀ (fuel : ℕ) (h : List HeapItem) (i : ℕ),
    ∀ a ∈ siftDownF fuel h i, a ∈ h := by
  intro fuel
  induction fuel with
  | zero => intro h i a ha; exact ha
  | succ f ih =>
    intro h i a ha
    unfold siftDownF at ha
    by_cases hm : (if 2 * i + 1 + 1 < h.length ∧
          (hget h (2 * i + 1 + 1)).d <
            (hget h (if 2 * i + 1 < h.length ∧ (hget h (2 * i + 1)).d < (hget h i).d
              then 2 * i + 1 else i)).d
        then 2 * i + 1 + 1
        else if 2 * i + 1 < h.length ∧ (hget h (2 * i + 1)).d < (hget h i).d
          then 2 * i + 1 else i) = i
    · rw [if_pos hm] at ha; exact ha
    · rw [if_neg hm] at ha
      have hbound : (if 2 * i + 1 + 1 < h.length ∧
            (hget h (2 * i + 1 + 1)).d <
              (hget h (if 2 * i + 1 < h.length ∧ (hget h (2 * i + 1)).d < (hget h i).d
                then 2 * i + 1 else i)).d
          then 2 * i + 1 + 1
          else if 2 * i + 1 < h.length ∧ (hget h (2 * i + 1)).d < (hget h i).d
            then 2 * i + 1 else i) < h.length ∧
          i < h.length := by
        by_cases hr : 2 * i + 1 + 1 < h.length ∧
            (hget h (2 * i + 1 + 1)).d <
              (hget h (if 2 * i + 1 < h.length ∧ (hget h (2 * i + 1)).d < (hget h i).d
                then 2 * i + 1 else i)).d
        · rw [if_pos hr]
          exact ⟨hr.1, by omega⟩
        · rw [if_neg hr]
          by_cases hl : 2 * i + 1 < h.length ∧ (hget h (2 * i + 1)).d < (hget h i).d
          · rw [if_pos hl]
            exact ⟨hl.1, by omega⟩
          · rw [if_neg hl]
            rw [if_neg hr, if_neg hl] at hm
            exact absurd rfl hm
      have := ih _ _ a ha
      have hlen := hswap_length h (if 2 * i + 1 + 1 < h.length ∧
            (hget h (2 * i + 1 + 1)).d <
              (hget h (if 2 * i + 1 < h.length ∧ (hget h (2 * i + 1)).d < (hget h i).d
                then 2 * i + 1 else i)).d
          then 2 * i + 1 + 1
          else if 2 * i + 1 < h.length ∧ (hget h (2 * i + 1)).d < (hget h i).d
            then 2 * i + 1 else i) i
      exact mem_hswap h _ _ hbound.1 hbound.2 a this

/-- The function `hpop` returns a member and a heap of members. -/
theorem hpop_spec (h : List HeapItem) (it : HeapItem) (h' : List HeapItem)
    (hp : hpop h = some (it, h')) : it ∈ h ∧ ∀ a ∈ h', a ∈ h := by
  unfold hpop at hp
  cases h with
  | nil => simp at hp
  | cons top rest =>
    simp only at hp
    split at hp
    · rename_i hemp
      rw [Option.some_inj, Prod.mk.injEq] at hp
      refine ⟨?_, ?_⟩
      · rw [← hp.1]; exact List.mem_cons_self top rest
      · intro a ha
        rw [← hp.2] at ha
        simp at ha
    · rename_i hemp
      rw [Option.some_inj, Prod.mk.injEq] at hp
      have h1 : top = it := hp.1
      have h2 : siftDownF (top :: rest).dropLast.length
          ((top :: rest).dropLast.set 0 ((top :: rest).getLast?.getD ⟨0, ⊤⟩)) 0 = h' :=
        hp.2
      refine ⟨h1 ▸ List.mem_cons_self top rest, ?_⟩
      intro a ha
      rw [← h2] at ha
      have hmem := mem_siftDownF _ _ _ a ha
      rcases List.mem_or_eq_of_mem_set hmem with hm | rfl
      · exact (List.dropLast_sublist (top :: rest)).mem hm
      · have hne : (top :: rest) ≠ [] := by simp
        rw [List.getLast?_eq_getLast _ hne]
        exact List.getLast_mem hne

/-- One `baseRelaxStep` never increases any distance. -/
theorem baseRelaxStep_dist_le (B : Val) (u : ℕ)
    (st : List HeapItem × DistArr × PredArr) (vw : ℕ × ℚ) (v' : ℕ) :
    (baseRelaxStep B u st vw).2.1 v' ≤ st.2.1 v' := by
  unfold baseRelaxStep
  simp only
  split
  · exact le_refl _
  · split
    · rename_i hB hlt
      rw [not_not] at hB
      simp only [Function.update_apply]
      split
      · rename_i hv
        rw [hv]
        exact hlt.le
      · exact le_refl _
    · exact le_refl _

/-- The whole edge fold of `baseCase`'s settle step never increases a
distance. -/
theorem baseFold_dist_le (B : Val) (u : ℕ) (edges : List (ℕ × ℚ)) :
    ∀ (st : List HeapItem × DistArr × PredArr) (v' : ℕ),
      (edges.foldl (baseRelaxStep B u) st).2.1 v' ≤ st.2.1 v' := by
  induction edges with
  | nil => intro st v'; exact le_refl _
  | cons e es ih =>
    intro st v'
    simp only [List.foldl_cons]
    exact le_trans (ih (baseRelaxStep B u st e) v') (baseRelaxStep_dist_le B u st e v')

/-- The `baseCase` loop never increases a distance. -/
theorem baseCaseLoop_dist_le (g : GSRGraph) (B : Val) (cap : ℕ) :
    ∀ (fuel : ℕ) (heap : List HeapItem) (U0 : List ℕ) (dist : DistArr)
      (pred : PredArr) (out : BaseLoopOut),
      baseCaseLoop g B cap fuel heap U0 dist pred = some out →
      ∀ v, out.dist v ≤ dist v := by
  intro fuel
  induction fuel with
  | zero =>
    intro heap U0 dist pred out hsome
    simp [baseCaseLoop] at hsome
  | succ f ih =>
    intro heap U0 dist pred out hsome v
    simp only [baseCaseLoop] at hsome
    split at hsome
    · rw [← Option.some_inj.mp hsome]
    · split at hsome
      · rw [← Option.some_inj.mp hsome]
      · rename_i it heap1 hpop
        split at hsome
        · exact ih heap1 U0 dist pred out hsome v
        · exact le_trans (ih _ _ _ _ out hsome v) (baseFold_dist_le B it.v (g.outEdges it.v) (heap1, dist, pred) v)

/-- Heap-and-settled invariant for claim C10: every heap item other
than the seed `x` carries a value below `B`, and every settled vertex
other than `x` sits strictly below `B` in the current distances; the
loop preserves both, so they hold of its output. -/
theorem baseCaseLoop_below_bound (g : GSRGraph) (B : Val) (cap : ℕ) (x : ℕ) :
    ∀ (fuel : ℕ) (heap : List HeapItem) (U0 : List ℕ) (dist : DistArr)
      (pred : PredArr) (out : BaseLoopOut),
      baseCaseLoop g B cap fuel heap U0 dist pred = some out →
      (∀ it ∈ heap, it.v ≠ x → it.d < B) →
      (∀ v ∈ U0, v ≠ x → dist v < B) →
      ∀ v ∈ out.U0, v ≠ x → out.dist v < B := by
  intro fuel
  induction fuel with
  | zero =>
    intro heap U0 dist pred out hsome
    simp [baseCaseLoop] at hsome
  | succ f ih =>
    intro heap U0 dist pred out hsome hheap hU0
    simp only [baseCaseLoop] at hsome
    split at hsome
    · rw [← Option.some_inj.mp hsome]
      exact hU0
    · split at hsome
      · rw [← Option.some_inj.mp hsome]
        exact hU0
      · rename_i it heap1 hpop
        have hps := hpop_spec heap it heap1 hpop
        split at hsome
        · exact ih heap1 U0 dist pred out hsome (fun a ha => hheap a (hps.2 a ha)) hU0
        · rename_i hfresh
          rw [not_not] at hfresh
          set st := (g.outEdges it.v).foldl (baseRelaxStep B it.v) (heap1, dist, pred) with hst
          have hheap2 : ∀ a ∈ st.1, a.v ≠ x → a.d < B := by
            rw [hst]
            have base : ∀ a ∈ (heap1, dist, pred).1, a.v ≠ x → a.d < B :=
              fun a ha => hheap a (hps.2 a ha)
            clear hst hsome
            generalize (heap1, dist, pred) = st0 at base ⊢
            induction g.outEdges it.v generalizing st0 with
            | nil => exact base
            | cons e es ihe =>
              simp only [List.foldl_cons]
              refine ihe (baseRelaxStep B it.v st0 e) ?_
              intro a ha hax
              unfold baseRelaxStep at ha
              simp only at ha
              split at ha
              · exact base a ha hax
              · split at ha
                · rename_i hB hlt
                  rw [not_not] at hB
                  rcases mem_hpush _ _ a ha with hm | rfl
                  · exact base a hm hax
                  · exact hB
                · exact base a ha hax
          have hU02 : ∀ v ∈ U0 ++ [it.v], v ≠ x → st.2.1 v < B := by
            intro v hv hvx
            rcases List.mem_append.mp hv with hm | hm
            · exact lt_of_le_of_lt (baseFold_dist_le B it.v (g.outEdges it.v) (heap1, dist, pred) v)
                (hU0 v hm hvx)
            · have hveq : v = it.v := List.mem_singleton.mp hm
              have hd : it.d < B := hheap it hps.1 (hveq ▸ hvx)
              rw [hfresh] at hd
              refine lt_of_le_of_lt ?_ hd
              rw [hveq]
              exact baseFold_dist_le B it.v (g.outEdges it.v) (heap1, dist, pred) it.v
          exact ih st.1 (U0 ++ [it.v]) st.2.1 st.2.2 out hsome hheap2 hU02

/-- Claim C10.  Every vertex the completed `baseCase` returns, other
than the seed `x`, sits strictly below `B` in the returned distances;
the seed itself is exempt: with `B = 0` and `dist[x] = 5` the call
still returns `U = [x]` although `dist[x] ≥ B`, because the bound
filters relaxed edges but not the initial seed. -/
theorem c10_baseCase_bound_except_seed (g : GSRGraph) (x : ℕ) (B : Val) (k : ℕ)
    (dist : DistArr) (pred : PredArr) (fuel : ℕ) (r : LevelOut)
    (h : baseCase g x B k dist pred fuel = some r) :
    (∀ v ∈ r.U, v ≠ x → r.dist v < B) ∧
    (baseCase gW10 0 ((0 : ℚ) : Val) 2 dW10 none 10).map
        (fun r2 => (r2.U, decide (((0 : ℚ) : Val) ≤ r2.dist 0))) = some ([0], true) := by
  refine ⟨?_, by decide⟩
  unfold baseCase at h
  rcases Option.map_eq_some'.mp h with ⟨out, hloop, hf⟩
  have hinv := baseCaseLoop_below_bound g B (k + 1) x fuel _ [] dist pred out hloop
    (by
      intro it hit hvx
      rcases mem_hpush [] ⟨x, dist x⟩ it hit with hm | rfl
      · simp at hm
      · exact absurd rfl hvx)
    (by simp)
  intro v hv hvx
  by_cases hle : out.U0.length ≤ k
  · rw [← hf, if_pos hle] at hv ⊢
    exact hinv v hv hvx
  · rw [← hf, if_neg hle] at hv ⊢
    exact hinv v (List.mem_of_mem_filter hv) hvx

/-- Witness for claim C7 at a concrete completed call: the returned
`U` has at most `k = 2` elements. -/
theorem c7_baseCase_cap_and_filter_witness :
    (baseCase gW7 0 ⊤ 2 (initDist 0) none 10).elim False
      (fun r => r.U.length ≤ 2) := by
  rcases hE : baseCase gW7 0 ⊤ 2 (initDist 0) none 10 with _ | r
  · exfalso
    have hs : (baseCase gW7 0 ⊤ 2 (initDist 0) none 10).isSome = true := by decide
    rw [hE] at hs
    simp at hs
  · simp only [Option.elim]
    rcases c7_baseCase_cap_and_filter gW7 0 ⊤ 2 (initDist 0) none 10 r hE with
      ⟨out, _, _, _, _, hU⟩
    exact hU

/-- Witness for claim C10 at a concrete completed call with bound 3:
every returned vertex other than the seed is strictly below the
bound. -/
theorem c10_baseCase_bound_except_seed_witness :
    (baseCase gW10 0 ((3 : ℚ) : Val) 2 (initDist 0) none 10).elim False
      (fun r => ∀ v ∈ r.U, v ≠ 0 → r.dist v < ((3 : ℚ) : Val)) := by
  rcases hE : baseCase gW10 0 ((3 : ℚ) : Val) 2 (initDist 0) none 10 with _ | r
  · exfalso
    have hs : (baseCase gW10 0 ((3 : ℚ) : Val) 2 (initDist 0) none 10).isSome = true := by decide
    rw [hE] at hs
    simp at hs
  · simp only [Option.elim]
    exact (c10_baseCase_bound_except_seed gW10 0 _ 2 (initDist 0) none 10 r hE).1

/-- Witness for claim C2 at a concrete queue: after pulling two pairs
the bound is the minimum of what remains. -/
theorem c2_pull_bound_true_min_witness :
    (∀ p ∈ qW2.pairs, p.val ≠ ⊤) ∧ qW2.size = qW2.pairs.length ∧
    ((∀ p ∈ qW2.pull.2.2.pairs, qW2.pull.2.1 ≤ p.val) ∧
      ∃ p ∈ qW2.pull.2.2.pairs, p.val = qW2.pull.2.1) := by
  have h1 : ∀ p ∈ qW2.pairs, p.val ≠ ⊤ := by decide
  have h2 : qW2.size = qW2.pairs.length := by decide
  exact ⟨h1, h2,
    ((c2_pull_bound_true_min qW2 h1 h2).2 (by decide)).1 (by decide)⟩

/-! ### Paths, realizability and the lower bound (towards claim C8) -/

/-- Writing a walk weight into a realizable array keeps it realizable. -/
theorem realizable_update (g : GSRGraph) (s : ℕ) (d : DistArr)
    (h : Realizable g s d) (v : ℕ) (c : ℚ) (hr : Reach g s v c) :
    Realizable g s (Function.update d v ((c : ℚ) : Val)) := by
  intro v' hv'
  by_cases he : v' = v
  · subst he
    rw [Function.update_same]
    exact ⟨c, hr, rfl⟩
  · rw [Function.update_noteq he] at hv' ⊢
    exact h v' hv'

/-- The initial array (`0` at the source, `∞` elsewhere) is realizable. -/
theorem initDist_realizable (g : GSRGraph) (src : ℕ) :
    Realizable g src (initDist src) := by
  intro v hv
  unfold initDist at hv ⊢
  by_cases he : v = src
  · rw [if_pos he]
    exact ⟨0, he ▸ Reach.source, rfl⟩
  · rw [if_neg he] at hv
    exact absurd rfl hv

/-- A finite entry of a realizable array names a walk. -/
theorem realizable_get (g : GSRGraph) (s : ℕ) (d : DistArr) (h : Realizable g s d)
    (u : ℕ) (du : ℚ) (hdu : d u = ((du : ℚ) : Val)) :
    Reach g s u du := by
  rcases h u (by rw [hdu]; exact WithTop.coe_ne_top) with ⟨c, hr, he⟩
  rw [hdu] at he
  rw [WithTop.coe_eq_coe] at he
  rw [he]
  exact hr

/-- The edge fold of a FindPivots round preserves realizability. -/
theorem fpRoundStep_fold_realizable (g : GSRGraph) (s : ℕ) (B : Val) (u : ℕ) (du : ℚ)
    (hdu : Reach g s u du) :
    ∀ (edges : List (ℕ × ℚ)), (∀ e ∈ edges, e ∈ g.outEdges u) →
    ∀ st2 : List ℕ × List ℕ × DistArr, Realizable g s st2.2.2 →
    Realizable g s ((edges.foldl (fpRoundStep B du) st2)).2.2 := by
  intro edges
  induction edges with
  | nil => intro _ st2 hst; exact hst
  | cons e es ih =>
    intro hmem st2 hst
    simp only [List.foldl_cons]
    refine ih (fun e2 he2 => hmem e2 (List.mem_cons_of_mem e he2)) _ ?_
    unfold fpRoundStep
    simp only
    split
    · exact hst
    · split
      · split
        · rename_i hB hle hin
          split
          · rename_i hlt
            have hr : Reach g s e.1 (du + e.2) := Reach.step hdu (hmem e (List.mem_cons_self e es))
            have : ((qadd du e.2 : ℚ) : Val) = (((du + e.2 : ℚ) : ℚ) : Val) := by
              rw [qadd_eq_add]
            rw [this]
            exact realizable_update g s st2.2.2 hst e.1 (du + e.2) hr
          · exact hst
        · rename_i hB hle hin
          split
          · rename_i hlt
            have hr : Reach g s e.1 (du + e.2) := Reach.step hdu (hmem e (List.mem_cons_self e es))
            have : ((qadd du e.2 : ℚ) : Val) = (((du + e.2 : ℚ) : ℚ) : Val) := by
              rw [qadd_eq_add]
            rw [this]
            exact realizable_update g s st2.2.2 hst e.1 (du + e.2) hr
          · exact hst
      · exact hst

/-- The edge fold of a FindPivots round never increases a distance. -/
theorem fpRoundStep_fold_dist_le (B : Val) (du : ℚ) :
    ∀ (edges : List (ℕ × ℚ)) (st2 : List ℕ × List ℕ × DistArr) (v' : ℕ),
    ((edges.foldl (fpRoundStep B du) st2)).2.2 v' ≤ st2.2.2 v' := by
  intro edges
  induction edges with
  | nil => intro st2 v'; exact le_refl _
  | cons e es ih =>
    intro st2 v'
    simp only [List.foldl_cons]
    refine le_trans (ih _ v') ?_
    unfold fpRoundStep
    simp only
    split
    · exact le_refl _
    · split
      · split
        · split
          · rename_i hB hle hin hlt
            simp only [Function.update_apply]
            split
            · rename_i hv
              rw [hv]
              exact hlt.le
            · exact le_refl _
          · exact le_refl _
        · split
          · rename_i hB hle hin hlt
            simp only [Function.update_apply]
            split
            · rename_i hv
              rw [hv]
              exact hlt.le
            · exact le_refl _
          · exact le_refl _
      · exact le_refl _

/-- A whole FindPivots round preserves realizability and monotonicity. -/
theorem fpRound_dist (g : GSRGraph) (s : ℕ) (B : Val) (prev : List ℕ) :
    ∀ (W : List ℕ) (dist : DistArr),
      (∀ v, (fpRound g B prev W dist).2.2 v ≤ dist v) ∧
      (Realizable g s dist → Realizable g s (fpRound g B prev W dist).2.2) := by
  unfold fpRound
  suffices h : ∀ (st : List ℕ × List ℕ × DistArr),
      (∀ v, (prev.foldl (fun st u =>
          match st.2.2 u with
          | ⊤ => st
          | some du => (g.outEdges u).foldl (fpRoundStep B du) st) st).2.2 v ≤ st.2.2 v) ∧
      (Realizable g s st.2.2 → Realizable g s (prev.foldl (fun st u =>
          match st.2.2 u with
          | ⊤ => st
          | some du => (g.outEdges u).foldl (fpRoundStep B du) st) st).2.2) by
    intro W dist
    exact h ([], W, dist)
  induction prev with
  | nil => intro st; exact ⟨fun v => le_refl _, fun h => h⟩
  | cons u us ih =>
    intro st
    simp only [List.foldl_cons]
    rcases hdu : st.2.2 u with _ | du
    · exact ⟨fun v => (ih st).1 v, fun h => (ih st).2 h⟩
    · refine ⟨?_, ?_⟩
      · intro v
        exact le_trans ((ih _).1 v) (fpRoundStep_fold_dist_le B du (g.outEdges u) st v)
      · intro h
        refine (ih _).2 ?_
        exact fpRoundStep_fold_realizable g s B u du
          (realizable_get g s st.2.2 h u du hdu) (g.outEdges u) (fun _ he => he) st h

/-- The FindPivots round loop preserves realizability and
monotonicity. -/
theorem fpRounds_dist (g : GSRGraph) (s : ℕ) (B : Val) (kS : ℕ) :
    ∀ (r : ℕ) (prev W : List ℕ) (dist : DistArr),
      (∀ v, (fpRounds g B kS r prev W dist).dist v ≤ dist v) ∧
      (Realizable g s dist → Realizable g s (fpRounds g B kS r prev W dist).dist) := by
  intro r
  induction r with
  | zero => intro prev W dist; exact ⟨fun v => le_refl _, fun h => h⟩
  | succ r ih =>
    intro prev W dist
    simp only [fpRounds]
    split
    · exact ⟨fun v => (fpRound_dist g s B prev W dist).1 v,
        fun h => (fpRound_dist g s B prev W dist).2 h⟩
    · split
      · exact ⟨fun v => (fpRound_dist g s B prev W dist).1 v,
          fun h => (fpRound_dist g s B prev W dist).2 h⟩
      · refine ⟨?_, ?_⟩
        · intro v
          exact le_trans ((ih _ _ _).1 v) ((fpRound_dist g s B prev W dist).1 v)
        · intro h
          exact (ih _ _ _).2 ((fpRound_dist g s B prev W dist).2 h)

/-- The function `findPivots` preserves realizability and monotonicity. -/
theorem findPivots_dist (g : GSRGraph) (s : ℕ) (B : Val) (S : List ℕ) (k : ℕ)
    (dist : DistArr) :
    (∀ v, (findPivots g B S k dist).dist v ≤ dist v) ∧
    (Realizable g s dist → Realizable g s (findPivots g B S k dist).dist) := by
  unfold findPivots
  simp only
  split
  · exact ⟨fun v => (fpRounds_dist g s B (k * S.length) k S _ dist).1 v,
      fun h => (fpRounds_dist g s B (k * S.length) k S _ dist).2 h⟩
  · exact ⟨fun v => (fpRounds_dist g s B (k * S.length) k S _ dist).1 v,
      fun h => (fpRounds_dist g s B (k * S.length) k S _ dist).2 h⟩

/-- The classify sweep's edge fold preserves realizability. -/
theorem classifyStep_fold_realizable (g : GSRGraph) (s : ℕ) (B Bi Bpi : Val) (u : ℕ)
    (du : ℚ) (hdu : Reach g s u du) :
    ∀ (edges : List (ℕ × ℚ)), (∀ e ∈ edges, e ∈ g.outEdges u) →
    ∀ st2 : ClassifyOut, Realizable g s st2.dist →
    Realizable g s ((edges.foldl (classifyStep B Bi Bpi u du) st2)).dist := by
  intro edges
  induction edges with
  | nil => intro _ st2 hst; exact hst
  | cons e es ih =>
    intro hmem st2 hst
    simp only [List.foldl_cons]
    refine ih (fun e2 he2 => hmem e2 (List.mem_cons_of_mem e he2)) _ ?_
    have hupd : Realizable g s
        (if ((qadd du e.2 : ℚ) : Val) < st2.dist e.1 then
          Function.update st2.dist e.1 ((qadd du e.2 : ℚ) : Val) else st2.dist) := by
      split
      · have hr : Reach g s e.1 (du + e.2) := Reach.step hdu (hmem e (List.mem_cons_self e es))
        have hq : ((qadd du e.2 : ℚ) : Val) = (((du + e.2 : ℚ) : ℚ) : Val) := by
          rw [qadd_eq_add]
        rw [hq]
        exact realizable_update g s st2.dist hst e.1 (du + e.2) hr
      · exact hst
    unfold classifyStep
    simp only
    split
    · split
      · exact hupd
      · split
        · exact hupd
        · exact hupd
    · exact hst

/-- The classify sweep's edge fold never increases a distance. -/
theorem classifyStep_fold_dist_le (B Bi Bpi : Val) (u : ℕ) (du : ℚ) :
    ∀ (edges : List (ℕ × ℚ)) (st2 : ClassifyOut) (v' : ℕ),
    ((edges.foldl (classifyStep B Bi Bpi u du) st2)).dist v' ≤ st2.dist v' := by
  intro edges
  induction edges with
  | nil => intro st2 v'; exact le_refl _
  | cons e es ih =>
    intro st2 v'
    simp only [List.foldl_cons]
    refine le_trans (ih _ v') ?_
    have hupd : ∀ w : ℕ,
        (if ((qadd du e.2 : ℚ) : Val) < st2.dist e.1 then
          Function.update st2.dist e.1 ((qadd du e.2 : ℚ) : Val) else st2.dist) w
          ≤ st2.dist w := by
      intro w
      split
      · rename_i hlt
        simp only [Function.update_apply]
        split
        · rename_i hv
          rw [hv]
          exact hlt.le
        · exact le_refl _
      · exact le_refl _
    unfold classifyStep
    simp only
    split
    · split
      · exact hupd v'
      · split
        · exact hupd v'
        · exact hupd v'
    · exact le_refl _

/-- The function `classifyRelax` preserves realizability and monotonicity. -/
theorem classifyRelax_dist (g : GSRGraph) (s : ℕ) (B Bi Bpi : Val) (Ui : List ℕ) :
    ∀ (Q : PSQueue) (dist : DistArr) (pred : PredArr),
      (∀ v, (classifyRelax g B Bi Bpi Ui Q dist pred).dist v ≤ dist v) ∧
      (Realizable g s dist →
        Realizable g s (classifyRelax g B Bi Bpi Ui Q dist pred).dist) := by
  unfold classifyRelax
  suffices h : ∀ (st : ClassifyOut),
      (∀ v, (Ui.foldl (fun st u =>
          match st.dist u with
          | ⊤ => st
          | some du => (g.outEdges u).foldl (classifyStep B Bi Bpi u du) st) st).dist v
        ≤ st.dist v) ∧
      (Realizable g s st.dist → Realizable g s ((Ui.foldl (fun st u =>
          match st.dist u with
          | ⊤ => st
          | some du => (g.outEdges u).foldl (classifyStep B Bi Bpi u du) st) st)).dist) by
    intro Q dist pred
    exact h ⟨Q, [], dist, pred⟩
  induction Ui with
  | nil => intro st; exact ⟨fun v => le_refl _, fun h => h⟩
  | cons u us ih =>
    intro st
    simp only [List.foldl_cons]
    rcases hdu : st.dist u with _ | du
    · exact ⟨fun v => (ih st).1 v, fun h => (ih st).2 h⟩
    · refine ⟨?_, ?_⟩
      · intro v
        exact le_trans ((ih _).1 v) (classifyStep_fold_dist_le B Bi Bpi u du (g.outEdges u) st v)
      · intro h
        refine (ih _).2 ?_
        exact classifyStep_fold_realizable g s B Bi Bpi u du
          (realizable_get g s st.dist h u du hdu) (g.outEdges u) (fun _ he => he) st h

/-- The heap relax fold of `baseCase` (and the completion pass)
preserves realizability: the written value is always the current
`dist[u]` plus the edge weight. -/
theorem baseFold_realizable (g : GSRGraph) (s : ℕ) (B : Val) (u : ℕ) :
    ∀ (edges : List (ℕ × ℚ)), (∀ e ∈ edges, e ∈ g.outEdges u) →
    ∀ st : List HeapItem × DistArr × PredArr, Realizable g s st.2.1 →
    Realizable g s ((edges.foldl (baseRelaxStep B u) st)).2.1 := by
  intro edges
  induction edges with
  | nil => intro _ st hst; exact hst
  | cons e es ih =>
    intro hmem st hst
    simp only [List.foldl_cons]
    refine ih (fun e2 he2 => hmem e2 (List.mem_cons_of_mem e he2)) _ ?_
    unfold baseRelaxStep
    simp only
    split
    · exact hst
    · split
      · rename_i hB hlt
        have hfin : vadd (st.2.1 u) e.2 ≠ ⊤ := ne_top_of_lt hlt
        rcases hu : st.2.1 u with _ | du
        · rw [hu] at hfin
          exact absurd rfl hfin
        · have hr : Reach g s e.1 (du + e.2) :=
            Reach.step (realizable_get g s st.2.1 hst u du hu)
              (hmem e (List.mem_cons_self e es))
          have hq : vadd (some du) e.2 = (((du + e.2 : ℚ) : ℚ) : Val) := by
            unfold vadd
            simp only
            rw [qadd_eq_add]
          rw [hq]
          exact realizable_update g s st.2.1 hst e.1 (du + e.2) hr
      · exact hst

/-- The `baseCase` loop preserves realizability. -/
theorem baseCaseLoop_realizable (g : GSRGraph) (s : ℕ) (B : Val) (cap : ℕ) :
    ∀ (fuel : ℕ) (heap : List HeapItem) (U0 : List ℕ) (dist : DistArr)
      (pred : PredArr) (out : BaseLoopOut),
      baseCaseLoop g B cap fuel heap U0 dist pred = some out →
      Realizable g s dist → Realizable g s out.dist := by
  intro fuel
  induction fuel with
  | zero =>
    intro heap U0 dist pred out hsome
    simp [baseCaseLoop] at hsome
  | succ f ih =>
    intro heap U0 dist pred out hsome hreal
    simp only [baseCaseLoop] at hsome
    split at hsome
    · rw [← Option.some_inj.mp hsome]
      exact hreal
    · split at hsome
      · rw [← Option.some_inj.mp hsome]
        exact hreal
      · rename_i it heap1 hpop
        split at hsome
        · exact ih heap1 U0 dist pred out hsome hreal
        · exact ih _ _ _ _ out hsome
            (baseFold_realizable g s B it.v (g.outEdges it.v) (fun _ he => he)
              (heap1, dist, pred) hreal)

/-- The function `baseCase` preserves realizability and monotonicity. -/
theorem baseCase_dist (g : GSRGraph) (s : ℕ) (x : ℕ) (B : Val) (k : ℕ)
    (dist : DistArr) (pred : PredArr) (fuel : ℕ) (r : LevelOut)
    (h : baseCase g x B k dist pred fuel = some r) :
    (∀ v, r.dist v ≤ dist v) ∧ (Realizable g s dist → Realizable g s r.dist) := by
  unfold baseCase at h
  rcases Option.map_eq_some'.mp h with ⟨out, hloop, hf⟩
  have hdist : r.dist = out.dist := by
    rw [← hf]
    split
    · rfl
    · rfl
  rw [hdist]
  exact ⟨baseCaseLoop_dist_le g B (k + 1) fuel _ [] dist pred out hloop,
    baseCaseLoop_realizable g s B (k + 1) fuel _ [] dist pred out hloop⟩

/-- The function `levelZero` (the `l = 0` delegate) preserves realizability and
monotonicity. -/
theorem levelZero_dist (g : GSRGraph) (s : ℕ) (k : ℕ) (fuel : ℕ) (B : Val)
    (S : List ℕ) (dist : DistArr) (pred : PredArr) (r : LevelOut)
    (h : levelZero g k fuel B S dist pred = some r) :
    (∀ v, r.dist v ≤ dist v) ∧ (Realizable g s dist → Realizable g s r.dist) := by
  unfold levelZero at h
  exact baseCase_dist g s (pickMinDist S dist) B k dist pred fuel r h

/-- The band loop of the `src/sssp/bmssp/bmssp.ts` copy preserves
realizability and monotonicity, given that the level below does. -/
theorem bmsspLoopNamed_dist (g : GSRGraph) (s : ℕ) (B : Val) (cap : ℕ)
    (recur : Val → List ℕ → DistArr → PredArr → Option LevelOut)
    (hrec : ∀ (B' : Val) (S' : List ℕ) (d' : DistArr) (p' : PredArr) (r' : LevelOut),
      recur B' S' d' p' = some r' →
      (∀ v, r'.dist v ≤ d' v) ∧ (Realizable g s d' → Realizable g s r'.dist)) :
    ∀ (fuel : ℕ) (Q : PSQueue) (U : List ℕ) (Bpi : Val) (dist : DistArr)
      (pred : PredArr) (out : LoopOut),
      bmsspLoopNamed g B cap recur fuel Q U Bpi dist pred = some out →
      (∀ v, out.dist v ≤ dist v) ∧ (Realizable g s dist → Realizable g s out.dist) := by
  intro fuel
  induction fuel with
  | zero =>
    intro Q U Bpi dist pred out hsome
    simp [bmsspLoopNamed] at hsome
  | succ f ih =>
    intro Q U Bpi dist pred out hsome
    simp only [bmsspLoopNamed] at hsome
    split at hsome
    · rw [← Option.some_inj.mp hsome]
      exact ⟨fun v => le_refl _, fun h => h⟩
    · split at hsome
      · rw [← Option.some_inj.mp hsome]
        exact ⟨fun v => le_refl _, fun h => h⟩
      · split at hsome
        · rw [← Option.some_inj.mp hsome]
          exact ⟨fun v => le_refl _, fun h => h⟩
        · rcases Option.bind_eq_some.mp hsome with ⟨sub, hsub, hrest⟩
          have hs := hrec _ _ _ _ sub hsub
          have hc := classifyRelax_dist g s B (Q.pull.2.1) sub.Bprime sub.U
            Q.pull.2.2 sub.dist sub.pred
          have hr := ih _ _ _ _ _ out hrest
          refine ⟨?_, ?_⟩
          · intro v
            exact le_trans (hr.1 v) (le_trans (hc.1 v) (hs.1 v))
          · intro h
            exact hr.2 (hc.2 (hs.2 h))

/-- One named level preserves realizability and monotonicity, given
the level below does. -/
theorem levelStepNamed_dist (g : GSRGraph) (s : ℕ) (k t l : ℕ) (prev : LevelFun)
    (hprev : ∀ (fuel : ℕ) (B : Val) (S : List ℕ) (d : DistArr) (p : PredArr) (r : LevelOut),
      prev fuel B S d p = some r →
      (∀ v, r.dist v ≤ d v) ∧ (Realizable g s d → Realizable g s r.dist)) :
    ∀ (fuel : ℕ) (B : Val) (S : List ℕ) (dist : DistArr) (pred : PredArr) (r : LevelOut),
      levelStepNamed g k t l prev fuel B S dist pred = some r →
      (∀ v, r.dist v ≤ dist v) ∧ (Realizable g s dist → Realizable g s r.dist) := by
  intro fuel B S dist pred r h
  unfold levelStepNamed at h
  simp only at h
  rcases Option.map_eq_some'.mp h with ⟨lo, hloop, hf⟩
  have hfp := findPivots_dist g s B S k dist
  have hl := bmsspLoopNamed_dist g s B _ (prev fuel)
    (fun B' S' d' p' r' h' => hprev fuel B' S' d' p' r' h') fuel _ [] _
    (findPivots g B S k dist).dist pred lo hloop
  have hdist : r.dist = lo.dist := by
    rw [← hf]
  rw [hdist]
  refine ⟨?_, ?_⟩
  · intro v
    exact le_trans (hl.1 v) (hfp.1 v)
  · intro hreal
    exact hl.2 (hfp.2 hreal)

/-- Every level of the `src/sssp/bmssp/bmssp.ts` recursion preserves
realizability and monotonicity. -/
theorem BMSSP_level_dist (g : GSRGraph) (s : ℕ) (k t : ℕ) :
    ∀ (l fuel : ℕ) (B : Val) (S : List ℕ) (dist : DistArr) (pred : PredArr) (r : LevelOut),
      BMSSP_level g k t l fuel B S dist pred = some r →
      (∀ v, r.dist v ≤ dist v) ∧ (Realizable g s dist → Realizable g s r.dist) := by
  intro l
  induction l with
  | zero =>
    intro fuel B S dist pred r h
    exact levelZero_dist g s k fuel B S dist pred r h
  | succ l ih =>
    intro fuel B S dist pred r h
    exact levelStepNamed_dist g s k t l (BMSSP_level g k t l)
      (fun fuel B S d p r h => ih fuel B S d p r h) fuel B S dist pred r h

/-- The driver output is below the initial array and above every
shortest-walk lower bound. -/
theorem bmSsspWith_dist (g : GSRGraph) (src k t L : ℕ) (retPred : Bool) (fuel : ℕ)
    (d : DistArr) (p : PredArr) (h : bmSsspWith g src k t L retPred fuel = some (d, p)) :
    (∀ v, d v ≤ initDist src v) ∧
    (∀ lb : DistArr, IsShortestLB g src lb → ∀ v, lb v ≤ d v) := by
  unfold bmSsspWith at h
  split at h
  · rcases Option.map_eq_some'.mp h with ⟨r, hr, hf⟩
    have hd : d = r.dist := by
      rw [Prod.mk.injEq] at hf
      rw [hf.1]
    have hl := BMSSP_level_dist g src k t L fuel ⊤ [src] (initDist src)
      (initPred retPred) r hr
    rw [hd]
    refine ⟨hl.1, ?_⟩
    intro lb hlb v
    have hreal := hl.2 (initDist_realizable g src)
    by_cases hv : r.dist v = ⊤
    · rw [hv]
      exact le_top
    · rcases hreal v hv with ⟨c, hrc, he⟩
      rw [he]
      exact hlb v c hrc
  · simp at h

/-- A single `relaxStep` never increases a distance. -/
theorem relaxStep_dist_le (u : ℕ) (du : ℚ) (eqOK : Bool) (boundB : Option Val)
    (st : RelaxResult) (vw : ℕ × ℚ) (v' : ℕ) :
    (relaxStep u du eqOK boundB st vw).dist v' ≤ st.dist v' := by
  unfold relaxStep
  simp only
  split
  · exact le_refl _
  · split
    · split
      · rename_i hc hlt
        simp only [Function.update_apply]
        split
        · rename_i hv
          rw [hv]
          exact hlt.le
        · exact le_refl _
      · exact le_refl _
    · exact le_refl _

/-- The function `relaxOutNeighbors` (the `relax.ts` copy) never increases any
distance. -/
theorem relaxOutNeighbors_dist_le (g : GSRGraph) (u : ℕ) (dist : DistArr)
    (pred : PredArr) (eqOK : Bool) (boundB : Option Val) (v' : ℕ) :
    (relaxOutNeighbors g u dist pred eqOK boundB).dist v' ≤ dist v' := by
  unfold relaxOutNeighbors
  rcases hdu : dist u with _ | du
  · exact le_refl _
  · suffices h : ∀ (edges : List (ℕ × ℚ)) (st : RelaxResult),
        ((edges.foldl (relaxStep u du eqOK boundB) st)).dist v' ≤ st.dist v' by
      exact h (g.outEdges u) ⟨dist, pred, 0⟩
    intro edges
    induction edges with
    | nil => intro st; exact le_refl _
    | cons e es ihe =>
      intro st
      simp only [List.foldl_cons]
      exact le_trans (ihe _) (relaxStep_dist_le u du eqOK boundB st e v')

/-- Out-edge weights come from the `weights` array (or the `getD`
default `0`), so a non-negative weights array gives non-negative edge
weights. -/
theorem outEdges_weight_nonneg (g : GSRGraph) (hw : ∀ w ∈ g.weights, (0 : ℚ) ≤ w)
    (u : ℕ) : ∀ e ∈ g.outEdges u, (0 : ℚ) ≤ e.2 := by
  intro e he
  unfold GSRGraph.outEdges at he
  simp only [List.mem_map, List.mem_range] at he
  rcases he with ⟨i, _, rfl⟩
  simp only
  by_cases hi : g.rowPtr.getD u 0 + i < g.weights.length
  · rw [List.getD_eq_getElem g.weights 0 hi]
    exact hw _ (List.getElem_mem hi)
  · rw [List.getD_eq_default g.weights 0 (le_of_not_lt hi)]

/-- With non-negative weights, the constant-zero array bounds every
walk weight from below. -/
theorem isShortestLB_zero (g : GSRGraph) (s : ℕ)
    (hw : ∀ w ∈ g.weights, (0 : ℚ) ≤ w) :
    IsShortestLB g s (fun _ => ((0 : ℚ) : Val)) := by
  intro v c hr
  have h0 : (0 : ℚ) ≤ c := by
    induction hr with
    | source => exact le_refl 0
    | step hr hm ih =>
      have := outEdges_weight_nonneg g hw _ _ hm
      exact add_nonneg ih this
  show ((0 : ℚ) : Val) ≤ (c : Val)
  exact_mod_cast h0

set_option maxHeartbeats 1000000 in
/-- Claim C8.  Across a `bmSssp` computation the distance array only
decreases: the relaxation primitive, `findPivots`, `baseCase` and
every `BMSSP_level` of the `src/sssp/bmssp/bmssp.ts` copy map the
shared array pointwise downwards, so `dist[v]` is monotonically
non-increasing over time; and the driver's output dominates every
lower bound of the walk weights — in particular the true shortest-path
distance from the source. -/
theorem c8_dist_monotone_and_lower_bounded :
    (∀ (g : GSRGraph) (u : ℕ) (dist : DistArr) (pred : PredArr) (eqOK : Bool)
        (bd : Option Val) (v : ℕ),
      (relaxOutNeighbors g u dist pred eqOK bd).dist v ≤ dist v) ∧
    (∀ (g : GSRGraph) (B : Val) (S : List ℕ) (k : ℕ) (dist : DistArr) (v : ℕ),
      (findPivots g B S k dist).dist v ≤ dist v) ∧
    (∀ (g : GSRGraph) (x : ℕ) (B : Val) (k : ℕ) (dist : DistArr) (pred : PredArr)
        (fuel : ℕ) (r : LevelOut), baseCase g x B k dist pred fuel = some r →
      ∀ v, r.dist v ≤ dist v) ∧
    (∀ (g : GSRGraph) (k t l fuel : ℕ) (B : Val) (S : List ℕ) (dist : DistArr)
        (pred : PredArr) (r : LevelOut),
      BMSSP_level g k t l fuel B S dist pred = some r → ∀ v, r.dist v ≤ dist v) ∧
    (∀ (g : GSRGraph) (src k t L : ℕ) (retPred : Bool) (fuel : ℕ)
        (d : DistArr) (p : PredArr), bmSsspWith g src k t L retPred fuel = some (d, p) →
      (∀ v, d v ≤ initDist src v) ∧
      (∀ lb : DistArr, IsShortestLB g src lb → ∀ v, lb v ≤ d v)) := by
  refine ⟨?_, ?_, ?_, ?_, ?_⟩
  · intro g u dist pred eqOK bd v
    exact relaxOutNeighbors_dist_le g u dist pred eqOK bd v
  · intro g B S k dist v
    exact (findPivots_dist g 0 B S k dist).1 v
  · intro g x B k dist pred fuel r h v
    exact (baseCase_dist g 0 x B k dist pred fuel r h).1 v
  · intro g k t l fuel B S dist pred r h v
    exact (BMSSP_level_dist g 0 k t l fuel B S dist pred r h).1 v
  · intro g src k t L retPred fuel d p h
    exact bmSsspWith_dist g src k t L retPred fuel d p h

/-- Witness for claim C8 at a concrete run: the computed distances
dominate the constant-zero lower bound (an instance of dominating the
true shortest distance). -/
theorem c8_dist_monotone_and_lower_bounded_witness :
    (∀ w ∈ gW8.weights, (0 : ℚ) ≤ w) ∧
    (bmSsspWith gW8 0 2 1 1 false 30).elim False
      (fun r => (∀ v, r.1 v ≤ initDist 0 v) ∧ ∀ v, ((0 : ℚ) : Val) ≤ r.1 v) := by
  refine ⟨by decide, ?_⟩
  rcases hE : bmSsspWith gW8 0 2 1 1 false 30 with _ | r
  · exfalso
    have hs : (bmSsspWith gW8 0 2 1 1 false 30).isSome = true := by decide
    rw [hE] at hs
    simp at hs
  · simp only [Option.elim]
    have hE2 : bmSsspWith gW8 0 2 1 1 false 30 = some (r.1, r.2) := by
      rw [hE]
    have h := (c8_dist_monotone_and_lower_bounded).2.2.2.2 gW8 0 2 1 1 false 30 r.1 r.2 hE2
    refine ⟨h.1, ?_⟩
    intro v
    exact h.2 (fun _ => ((0 : ℚ) : Val)) (isShortestLB_zero gW8 0 (by decide)) v

/-- Claim C3.  The spec requires: when `findPivots` returns an empty
pivot set `P`, level `l ≥ 1` substitutes `P := S` before seeding the
queue.  The `src/sssp/bmssp/bmssp.ts` copy of `BMSSP_level` performs no
such substitution: on `gSelfLoop` with `B = 2`, `S = [0]`, `k = 2`,
`findPivots` returns `P = []` with `S` non-empty, the named copy seeds
nothing, pulls nothing, and leaves `dist[1] = ∞`, while the other copy
of `bmssp.ts` (which substitutes `P := S`) drives the band loop from
`S` and its level-0 relaxations set `dist[1] = 5`. -/
theorem c3_empty_pivot_fallback_missing :
    (findPivots gSelfLoop 2 [0] 2 (initDist 0)).P = [] ∧
    ([0] : List ℕ) ≠ [] ∧
    (BMSSP_level gSelfLoop 2 1 1 100 2 [0] (initDist 0) none).map (fun r => r.dist 1)
      = some ⊤ ∧
    (BMSSP08_level gSelfLoop 2 1 1 100 2 [0] (initDist 0) none).map (fun r => r.dist 1)
      = some ((5 : ℚ) : Val) :=
  ⟨by decide, by decide, by decide, by decide⟩

set_option maxHeartbeats 4000000 in
/-- Claim C4.  The spec requires a completion-propagation pass (a
bounded multi-source Dijkstra from `extraW`) after the band loop of
every level `l ≥ 1`.  The `src/sssp/bmssp/bmssp.ts` copy only unions
`extraW` into `U` without propagating: at the top level call
`BMSSP_level(2, ∞, [0])` (the driver's parameters for `n = 6` are
`k = 2, t = 1, L = 2`) on the unit chain it leaves `dist[4] = ∞`,
while the copy that runs the pass (embedded as `BMSSP08_level`,
`completionLoop` being the pass itself) reaches `dist[4] = 4`. -/
theorem c4_completion_pass_missing :
    (BMSSP_level gChain6 2 1 2 100 ⊤ [0] (initDist 0) none).map (fun r => r.dist 4)
      = some ⊤ ∧
    (BMSSP08_level gChain6 2 1 2 100 ⊤ [0] (initDist 0) none).map (fun r => r.dist 4)
      = some ((4 : ℚ) : Val) :=
  ⟨by decide, by decide⟩

/-- Claim C5.  The PSQ law says every key returned by `pull` has its
retained val `≤` the returned bound.  After the five inserts of
`qFive` (`M = 3`), `pull` drains the front block `[(1,5),(2,2),(3,1)]`
— the front block is not internally sorted — so key `1` is returned
with retained val `5`, while the true minimum of the remaining pairs,
and hence the returned bound, is `3`. -/
theorem c5_pull_val_can_exceed_bound :
    1 ∈ qFive.pull.1 ∧
    (⟨1, ((5 : ℚ) : Val)⟩ : Pair) ∈ dedupeBest [] (drainBlocks qFive.blocks qFive.M).1 ∧
    qFive.pull.2.1 = ((3 : ℚ) : Val) ∧
    ¬ ((5 : ℚ) : Val) ≤ ((3 : ℚ) : Val) :=
  ⟨by decide, by decide, by decide, by decide⟩

/-- Claim C6.  The spec mandates: never write `dist`/`pred` when
`nd = dist[v]`; `eq_ok` only makes the visit count.  The
`src/sssp/bmssp/relax.ts` copy obeys this: on `gOneEdge` with
`dist = [0, 1]`, `eqOK = true`, it counts one relaxation and leaves
both arrays untouched.  The other copy of the primitive kept in the
repository (embedded as `relaxOutNeighborsAlt`) assigns on the same
input: it writes `pred[1] = 0` although `nd = dist[1]`. -/
theorem c6_alt_relax_writes_on_equality :
    (relaxOutNeighbors gOneEdge 0 dEq01 pAllNeg true none).updates = 1 ∧
    (relaxOutNeighbors gOneEdge 0 dEq01 pAllNeg true none).dist 1 = ((1 : ℚ) : Val) ∧
    (relaxOutNeighbors gOneEdge 0 dEq01 pAllNeg true none).pred.map (fun p => p 1)
      = some (-1) ∧
    (relaxOutNeighborsAlt gOneEdge 0 dEq01 pAllNeg true none).updates = 1 ∧
    (relaxOutNeighborsAlt gOneEdge 0 dEq01 pAllNeg true none).pred.map (fun p => p 1)
      = some 0 :=
  ⟨by decide, by decide, by decide, by decide, by decide⟩

/-! ## Driver parameters at `n = 6` -/

/-- Bound `e < 6`, from the decimal bound on `e`. -/
theorem exp_one_lt_six : Real.exp 1 < 6 :=
  lt_trans Real.exp_one_lt_d9 (by norm_num)

/-- Bound `6 ≤ e²`. -/
theorem six_le_exp_two : (6 : ℝ) ≤ Real.exp 2 := by
  have h2 : Real.exp 2 = Real.exp 1 * Real.exp 1 := by
    rw [← Real.exp_add]; norm_num
  nlinarith [Real.exp_one_gt_d9]

/-- Bound `1 < ln 6`. -/
theorem one_lt_log_six : 1 < Real.log 6 :=
  (Real.lt_log_iff_exp_lt (by norm_num)).mpr exp_one_lt_six

/-- Bound `ln 6 ≤ 2`. -/
theorem log_six_le_two : Real.log 6 ≤ 2 :=
  (Real.log_le_iff_le_exp (by norm_num)).mpr six_le_exp_two

/-- At `n = 6` the driver's clamped log is `ln 6` itself. -/
theorem lnParam_six : lnParam 6 = Real.log 6 := by
  unfold lnParam
  have h6 : max (2 : ℝ) ((6 : ℕ) : ℝ) = 6 := by norm_num
  rw [h6, max_eq_right one_lt_log_six.le]

/-- A cube-root bound: `a < b³` gives `a^(1/3) < b`. -/
theorem rpow_third_lt {a b : ℝ} (ha : 0 ≤ a) (hb : 0 ≤ b) (h : a < b ^ (3 : ℕ)) :
    a ^ ((1 : ℝ) / 3) < b := by
  have h3 : ((b ^ (3 : ℕ) : ℝ)) ^ ((1 : ℝ) / 3) = b := by
    rw [← Real.rpow_natCast b 3, ← Real.rpow_mul hb]
    norm_num
  calc a ^ ((1 : ℝ) / 3) < (b ^ (3 : ℕ)) ^ ((1 : ℝ) / 3) :=
        Real.rpow_lt_rpow ha h (by norm_num)
    _ = b := h3

/-- The driver picks `k = 2` at `n = 6`. -/
theorem paramK_six : paramK 6 = 2 := by
  unfold paramK
  have hlt : lnParam 6 ^ ((1 : ℝ) / 3) < 2 := by
    rw [lnParam_six]
    exact rpow_third_lt (Real.log_nonneg (by norm_num)) (by norm_num)
      (lt_of_le_of_lt log_six_le_two (by norm_num))
  have : ⌊lnParam 6 ^ ((1 : ℝ) / 3)⌋₊ < 2 :=
    Nat.floor_lt' (by norm_num) |>.mpr (by exact_mod_cast hlt)
  omega

/-- The driver picks `t = 1` at `n = 6`. -/
theorem paramT_six : paramT 6 = 1 := by
  unfold paramT
  have hlt : (lnParam 6 * lnParam 6) ^ ((1 : ℝ) / 3) < 2 := by
    rw [lnParam_six]
    refine rpow_third_lt
      (mul_nonneg (Real.log_nonneg (by norm_num)) (Real.log_nonneg (by norm_num)))
      (by norm_num) ?_
    nlinarith [log_six_le_two, Real.log_nonneg (show (1 : ℝ) ≤ 6 by norm_num)]
  have : ⌊(lnParam 6 * lnParam 6) ^ ((1 : ℝ) / 3)⌋₊ < 2 :=
    Nat.floor_lt' (by norm_num) |>.mpr (by exact_mod_cast hlt)
  omega

/-- The driver picks `L = 2` at `n = 6`. -/
theorem paramL_six : paramL 6 = 2 := by
  unfold paramL
  rw [paramT_six]
  have h1 : max (1 : ℝ) ((1 : ℕ) : ℝ) = 1 := by norm_num
  rw [h1, div_one, lnParam_six]
  have : ⌈Real.log 6⌉₊ = 2 := by
    rw [Nat.ceil_eq_iff (by norm_num)]
    refine ⟨?_, ?_⟩
    · show ((2 - 1 : ℕ) : ℝ) < Real.log 6
      norm_num
      exact one_lt_log_six
    · exact_mod_cast log_six_le_two
  omega

set_option maxHeartbeats 4000000 in
/-- Claim C1.  Oracle equivalence fails for the `bmSssp` driver whose
module is the `src/sssp/bmssp/bmssp.ts` copy: on spec scenario S2
(`gS2`, a valid CSR graph) with source `0` and the parameters the
driver derives from `n = 6` (`k = 2, t = 1, L = 2`, proved above from
the real logarithm), `bmSssp` leaves `dist[4] = ∞` while the reference
`dijkstraSSSP` returns `dist[4] = 5`; no `EPS` tolerance reconciles
`∞` with `5`. -/
theorem c1_oracle_equivalence_fails_on_s2 :
    (bmSssp gS2 0 false 100).map (fun r => r.1 4) = some ⊤ ∧
    (dijkstraSSSP gS2 0 false 100).map (fun r => r.1 4) = some ((5 : ℚ) : Val) := by
  constructor
  · show (bmSsspWith gS2 0 (paramK gS2.n) (paramT gS2.n) (paramL gS2.n) false 100).map
      (fun r => r.1 4) = some ⊤
    have hn : gS2.n = 6 := rfl
    rw [hn, paramK_six, paramT_six, paramL_six]
    decide
  · decide
